import Mathlib

/-!
CompareToVector8: byte-wise vector comparison kernel.

A shallow embedding of `Elfie.Native/CompareToVector8.cpp` (`WhereN`, `WhereB`, `WhereS`,
`CompareToVector::Where`) together with the properties of its bit-packed match vector.

Conventions of the embedding:
* a byte (`unsigned __int8`) is a `Nat` below `256`; a word (`unsigned __int64`) is a `Nat`
  below `2 ^ 64`; a 256-bit register (`__m256i`) is the list of its 32 bytes, lowest first;
* a non-negative `int` is a `Nat` below `2 ^ 31`; an `int` addition that leaves this range
  (undefined behaviour in C++) makes the run fail;
* memory is the pair of the element array and the match vector, with a ghost trace of the
  accesses made; an access outside an array makes the run fail (`none`).
-/

namespace Elfie

/-! ## Enumerations (Operator.h) -/

/-- Modelled from the spec: the enumeration `CompareOperatorN` of `Operator.h` (the header is not
part of the sources); the six comparison operators. -/
inductive CompareOperatorN where
  | GreaterThan
  | GreaterThanOrEqual
  | LessThan
  | LessThanOrEqual
  | Equals
  | NotEquals
  deriving DecidableEq

/-- Modelled from the spec: the enumeration `BooleanOperatorN` of `Operator.h`; the three
combine modes. -/
inductive BooleanOperatorN where
  | Set
  | And
  | Or
  deriving DecidableEq

/-- Modelled from the spec: the enumeration `SigningN` of `Operator.h`. -/
inductive SigningN where
  | Signed
  | Unsigned
  deriving DecidableEq

/-! ## Machine integers -/

/-- The value of a byte read as a two's-complement `__int8`. -/
def toInt8 (b : Nat) : Int :=
  if b % 256 < 128 then ((b % 256 : Nat) : Int) else ((b % 256 : Nat) : Int) - 256

/-- The value of a 32-bit pattern read as a two's-complement `int`. -/
def toInt32 (p : Nat) : Int :=
  if p % 2 ^ 32 < 2 ^ 31 then ((p % 2 ^ 32 : Nat) : Int) else ((p % 2 ^ 32 : Nat) : Int) - 2 ^ 32

/-- Conversion of an `int` to `unsigned int`: reduction modulo `2 ^ 32`. -/
def toUInt32 (x : Int) : Nat :=
  (x % 2 ^ 32).toNat

/-- Addition of two non-negative `int`s; leaving the range of `int` is undefined behaviour. -/
def intAdd (a b : Nat) : Option Nat :=
  if a + b < 2 ^ 31 then some (a + b) else none

/-! ## AVX intrinsics, as described in the header comment of the file -/

/-- Intrinsic `_mm256_set1_epi8`: all 32 bytes of the register set to the byte pattern of a `char`. -/
def _mm256_set1_epi8 (b : Int) : List Nat :=
  List.replicate 32 (b % 256).toNat

/-- Intrinsic `_mm256_loadu_si256`: the 32 bytes of `set` starting at offset `i`. -/
def _mm256_loadu_si256 (set : List Nat) (i : Nat) : Option (List Nat) :=
  if i + 32 ≤ set.length then some ((set.drop i).take 32) else none

/-- Intrinsic `_mm256_sub_epi8`: byte-wise wrapping subtraction. -/
def _mm256_sub_epi8 (a b : List Nat) : List Nat :=
  List.zipWith (fun x y => (x + 256 - y) % 256) a b

/-- Intrinsic `_mm256_cmpgt_epi8`: byte-wise signed greater-than, `0xFF` where `a > b`, else `0x00`. -/
def _mm256_cmpgt_epi8 (a b : List Nat) : List Nat :=
  List.zipWith (fun x y => if toInt8 x > toInt8 y then 0xFF else 0x00) a b

/-- Intrinsic `_mm256_cmpeq_epi8`: byte-wise equality, `0xFF` where `a = b`, else `0x00`. -/
def _mm256_cmpeq_epi8 (a b : List Nat) : List Nat :=
  List.zipWith (fun x y => if x = y then 0xFF else 0x00) a b

/-- The bit pattern gathered by `_mm256_movemask_epi8`: bit `j` is the top bit of byte `j`. -/
def movemaskBits : List Nat → Nat
  | [] => 0
  | b :: bs => b / 128 % 2 + 2 * movemaskBits bs

/-- Intrinsic `_mm256_movemask_epi8`: the gathered top bits, returned as an `int`. -/
def _mm256_movemask_epi8 (m : List Nat) : Int :=
  toInt32 (movemaskBits m)

/-! ## Memory -/

/-- One memory access of a run: a 32-byte load from the element array at an offset, a store to
a word of the match vector, or the hand-over of the element sub-range `[offset, offset + length)`
and of one match-vector word to the remainder handler. -/
inductive Access where
  | load (offset : Nat)
  | store (word : Nat)
  | remainder (offset length word : Nat)
  deriving DecidableEq

/-- The memory a run works on: the element array `set`, the match vector, and the ghost trace of
the accesses made so far. -/
structure Memory where
  set : List Nat
  matchVector : List Nat
  trace : List Access
  deriving DecidableEq

/-- A checked 32-byte load from the element array, recorded in the trace. -/
def Memory.loadu (m : Memory) (i : Nat) : Option (List Nat × Memory) :=
  match _mm256_loadu_si256 m.set i with
  | none => none
  | some block => some (block, { m with trace := m.trace ++ [Access.load i] })

/-- A checked read of word `w` of the match vector. -/
def Memory.readWord (m : Memory) (w : Nat) : Option Nat :=
  m.matchVector[w]?

/-- A checked store into word `w` of the match vector, recorded in the trace. -/
def Memory.writeWord (m : Memory) (w : Nat) (x : Nat) : Option Memory :=
  if w < m.matchVector.length then
    some { m with matchVector := m.matchVector.set w x, trace := m.trace ++ [Access.store w] }
  else none

/-! ## The remainder handler `WhereSingle` (CompareToSingle.cpp) -/

/-- The reading of a byte under a signedness: two's complement in `[-128, 127]` for `Signed`,
the plain value in `[0, 255]` for `Unsigned`. -/
def interpret (sign : SigningN) (b : Nat) : Int :=
  match sign with
  | SigningN.Signed => toInt8 b
  | SigningN.Unsigned => (b : Int)

/-- The predicate `x OP v` as a plain integer comparison of the two bytes read under `sign`. -/
def compareBytes (cOp : CompareOperatorN) (sign : SigningN) (x v : Nat) : Bool :=
  match cOp with
  | CompareOperatorN.GreaterThan => decide (interpret sign x > interpret sign v)
  | CompareOperatorN.GreaterThanOrEqual => decide (interpret sign x ≥ interpret sign v)
  | CompareOperatorN.LessThan => decide (interpret sign x < interpret sign v)
  | CompareOperatorN.LessThanOrEqual => decide (interpret sign x ≤ interpret sign v)
  | CompareOperatorN.Equals => decide (interpret sign x = interpret sign v)
  | CompareOperatorN.NotEquals => decide (interpret sign x ≠ interpret sign v)

/-- The combine rule on one bit: `Set` takes the new bit, `And` and `Or` merge it with the
prior bit. -/
def combineBit (bOp : BooleanOperatorN) (prior new : Bool) : Bool :=
  match bOp with
  | BooleanOperatorN.Set => new
  | BooleanOperatorN.And => prior && new
  | BooleanOperatorN.Or => prior || new

/-- The type of a remainder handler: operator, combine mode, signedness of the element type,
the sub-array, its length, the scalar value and the prior content of the one match-vector word;
it returns the new content of that word, or fails on an out-of-bounds read. -/
abbrev RemainderHandler :=
  CompareOperatorN → BooleanOperatorN → SigningN → List Nat → Nat → Nat → Nat → Option Nat

/-- The word `w` with bit `j` replaced by `b`. -/
def writeBit (w j : Nat) (b : Bool) : Nat :=
  if b then w ||| 2 ^ j else w ^^^ (w &&& 2 ^ j)

/-- The element-by-element pass of the remainder handler over the sub-array, from bit `j` on. -/
def whereSingleBits (cOp : CompareOperatorN) (bOp : BooleanOperatorN) (T : SigningN)
    (value : Nat) : List Nat → Nat → Nat → Nat
  | [], _, w => w
  | x :: xs, j, w =>
    whereSingleBits cOp bOp T value xs (j + 1)
      (writeBit w j (combineBit bOp (w.testBit j) (compareBytes cOp T x value)))

/-- Modelled from the spec: `WhereSingle<cOp, bOp, T>` of `CompareToSingle.cpp`, which is included
by the file but is not part of the sources. Following section 4.3 of the spec it computes the
per-element predicate over the `length` elements of the sub-array, read under the signedness of the
element type `T`, and applies it with the combine rule to the low `length` bits of the one word
it is given, writing only those bits. -/
def WhereSingle : RemainderHandler :=
  fun cOp bOp T set length value word =>
    if length ≤ set.length then
      some (whereSingleBits cOp bOp T value (set.take length) 0 word)
    else none

/-- Modelled from the spec: the contract of the remainder handler (section 4.3), for a handler
whose bits beyond the sub-range are left undefined. On a sub-array holding at least `length`
elements, `length < 64`, it returns a word whose bit `j`, for every `j < length`, is the
combination of the prior bit `j` with the predicate on element `j`. -/
def RemainderContract (ws : RemainderHandler) : Prop :=
  ∀ (cOp : CompareOperatorN) (bOp : BooleanOperatorN) (T : SigningN) (set : List Nat)
    (length value word : Nat), length ≤ set.length → length < 64 →
    ∃ word', ws cOp bOp T set length value word = some word' ∧
      ∀ j, j < length →
        word'.testBit j = combineBit bOp (word.testBit j) (compareBytes cOp T (set.getD j 0) value)

/-! ## `WhereN`: the vectorized loop and the remainder call -/

/-- Lines 54-94 of `WhereN`, on the two loaded lanes: bias them for `Unsigned`, compare against
the block of the value, gather the mask bits, merge the two lanes into 64 bits and negate for the
operators computed through their opposite. -/
def compareLanes (cOp : CompareOperatorN) (sign : SigningN)
    (unsignedToSigned blockOfValue block1 block2 : List Nat) : Nat :=
  let block1 :=
    if sign = SigningN.Unsigned then _mm256_sub_epi8 block1 unsignedToSigned else block1
  let block2 :=
    if sign = SigningN.Unsigned then _mm256_sub_epi8 block2 unsignedToSigned else block2
  let matchMask1 :=
    match cOp with
    | CompareOperatorN.GreaterThan | CompareOperatorN.LessThanOrEqual =>
      _mm256_cmpgt_epi8 block1 blockOfValue
    | CompareOperatorN.LessThan | CompareOperatorN.GreaterThanOrEqual =>
      _mm256_cmpgt_epi8 blockOfValue block1
    | CompareOperatorN.Equals | CompareOperatorN.NotEquals =>
      _mm256_cmpeq_epi8 block1 blockOfValue
  let matchMask2 :=
    match cOp with
    | CompareOperatorN.GreaterThan | CompareOperatorN.LessThanOrEqual =>
      _mm256_cmpgt_epi8 block2 blockOfValue
    | CompareOperatorN.LessThan | CompareOperatorN.GreaterThanOrEqual =>
      _mm256_cmpgt_epi8 blockOfValue block2
    | CompareOperatorN.Equals | CompareOperatorN.NotEquals =>
      _mm256_cmpeq_epi8 block2 blockOfValue
  let matchBits1 := toUInt32 (_mm256_movemask_epi8 matchMask1)
  let matchBits2 := toUInt32 (_mm256_movemask_epi8 matchMask2)
  let result := (matchBits2 <<< 32) % 2 ^ 64 ||| matchBits1
  if cOp = CompareOperatorN.LessThanOrEqual ∨ cOp = CompareOperatorN.GreaterThanOrEqual
      ∨ cOp = CompareOperatorN.NotEquals then
    result ^^^ (2 ^ 64 - 1)
  else result

/-- Lines 50-94 of `WhereN`: load the two 32-byte lanes at `i` and `i + 32` and compute the
64-bit result of the block. -/
def blockResult (cOp : CompareOperatorN) (sign : SigningN)
    (unsignedToSigned blockOfValue : List Nat) (i : Nat) (m : Memory) : Option (Nat × Memory) :=
  match m.loadu i with
  | none => none
  | some (block1, m1) =>
    match intAdd i 32 with
    | none => none
    | some i32 =>
      match m1.loadu i32 with
      | none => none
      | some (block2, m2) =>
        some (compareLanes cOp sign unsignedToSigned blockOfValue block1 block2, m2)

/-- Lines 96-108 of `WhereN`: merge the result into word `i >> 6` of the match vector. -/
def mergeResult (bOp : BooleanOperatorN) (i result : Nat) (m : Memory) : Option Memory :=
  match bOp with
  | BooleanOperatorN.Set => m.writeWord (i >>> 6) result
  | BooleanOperatorN.And =>
    match m.readWord (i >>> 6) with
    | none => none
    | some old => m.writeWord (i >>> 6) (old &&& result)
  | BooleanOperatorN.Or =>
    match m.readWord (i >>> 6) with
    | none => none
    | some old => m.writeWord (i >>> 6) (old ||| result)

/-- The loop `for (; i < blockLength; i += 64)` of `WhereN`, with the number of iterations
bounded by `fuel`; it returns the final value of `i` and the final memory. -/
def blockLoop (cOp : CompareOperatorN) (bOp : BooleanOperatorN) (sign : SigningN)
    (unsignedToSigned blockOfValue : List Nat) (blockLength : Nat) :
    Nat → Nat → Memory → Option (Nat × Memory)
  | 0, i, m => if i < blockLength then none else some (i, m)
  | fuel + 1, i, m =>
    if i < blockLength then
      match blockResult cOp sign unsignedToSigned blockOfValue i m with
      | none => none
      | some (result, m1) =>
        match mergeResult bOp i result m1 with
        | none => none
        | some m2 =>
          match intAdd i 64 with
          | none => none
          | some i64 => blockLoop cOp bOp sign unsignedToSigned blockOfValue blockLength fuel i64 m2
    else some (i, m)

/-- Line 112 of `WhereN`: when `length & 63` is not zero, hand the sub-array `&set[i]` of
`length - i` elements and the word `&matchVector[i >> 6]` to
`WhereSingle<cOp, bOp, unsigned __int8>`, with the unbiased `value`. -/
def remainderCall (ws : RemainderHandler) (cOp : CompareOperatorN) (bOp : BooleanOperatorN)
    (length value i : Nat) (m : Memory) : Option Memory :=
  if length &&& 63 ≠ 0 then
    match m.readWord (i >>> 6) with
    | none => none
    | some word =>
      match ws cOp bOp SigningN.Unsigned (m.set.drop i) (length - i) value word with
      | none => none
      | some word' =>
        some { m with
          matchVector := m.matchVector.set (i >>> 6) word'
          trace := m.trace ++ [Access.remainder i (length - i) (i >>> 6)] }
  else some m

/-- The function `WhereN<cOp, bOp, sign>(set, length, value, matchVector)`, with the remainder handler `ws`
standing for `WhereSingle`. The result is the final memory. -/
def WhereN (ws : RemainderHandler) (cOp : CompareOperatorN) (bOp : BooleanOperatorN)
    (sign : SigningN) (set : List Nat) (length value : Nat) (matchVector : List Nat) :
    Option Memory :=
  let unsignedToSigned := _mm256_set1_epi8 (-128)
  let blockOfValue := _mm256_set1_epi8 (value : Int)
  let blockOfValue :=
    if sign = SigningN.Unsigned then _mm256_sub_epi8 blockOfValue unsignedToSigned else blockOfValue
  let blockLength := length &&& 0xFFFFFFC0
  match blockLoop cOp bOp sign unsignedToSigned blockOfValue blockLength length 0
      { set := set, matchVector := matchVector, trace := [] } with
  | none => none
  | some (i, m) => remainderCall ws cOp bOp length value i m

/-! ## The dispatch ladder -/

/-- The function `WhereB<bOp, signing>`: selection of the comparison operator. -/
def WhereB (ws : RemainderHandler) (bOp : BooleanOperatorN) (signing : SigningN)
    (cOp : CompareOperatorN) (set : List Nat) (length value : Nat) (matchVector : List Nat) :
    Option Memory :=
  match cOp with
  | CompareOperatorN.GreaterThan =>
    WhereN ws CompareOperatorN.GreaterThan bOp signing set length value matchVector
  | CompareOperatorN.GreaterThanOrEqual =>
    WhereN ws CompareOperatorN.GreaterThanOrEqual bOp signing set length value matchVector
  | CompareOperatorN.LessThan =>
    WhereN ws CompareOperatorN.LessThan bOp signing set length value matchVector
  | CompareOperatorN.LessThanOrEqual =>
    WhereN ws CompareOperatorN.LessThanOrEqual bOp signing set length value matchVector
  | CompareOperatorN.Equals =>
    WhereN ws CompareOperatorN.Equals bOp signing set length value matchVector
  | CompareOperatorN.NotEquals =>
    WhereN ws CompareOperatorN.NotEquals bOp signing set length value matchVector

/-- The function `WhereS<signing>`: selection of the combine mode. -/
def WhereS (ws : RemainderHandler) (signing : SigningN) (cOp : CompareOperatorN)
    (bOp : BooleanOperatorN) (set : List Nat) (length value : Nat) (matchVector : List Nat) :
    Option Memory :=
  match bOp with
  | BooleanOperatorN.Set => WhereB ws BooleanOperatorN.Set signing cOp set length value matchVector
  | BooleanOperatorN.And => WhereB ws BooleanOperatorN.And signing cOp set length value matchVector
  | BooleanOperatorN.Or => WhereB ws BooleanOperatorN.Or signing cOp set length value matchVector

/-- The entry point `CompareToVector::Where`: selection of the signedness. -/
def Where (ws : RemainderHandler) (cOp : CompareOperatorN) (bOp : BooleanOperatorN)
    (signing : SigningN) (set : List Nat) (length value : Nat) (matchVector : List Nat) :
    Option Memory :=
  match signing with
  | SigningN.Signed => WhereS ws SigningN.Signed cOp bOp set length value matchVector
  | SigningN.Unsigned => WhereS ws SigningN.Unsigned cOp bOp set length value matchVector

/-! ## Reading the match vector -/

/-- Bit `i % 64` of word `i / 64` of a match vector. -/
def bitAt (matchVector : List Nat) (i : Nat) : Bool :=
  (matchVector.getD (i / 64) 0).testBit (i % 64)

/-! ## The scalar reference -/

/-- The word whose bit `j` is the `j`-th entry of a list of booleans. -/
def packBits : List Bool → Nat
  | [] => 0
  | b :: bs => b.toNat + 2 * packBits bs

/-- The 64-bit word of the scalar reference for the block starting at element `i`: bit `j` is
set exactly when `set[i + j] OP value` holds under `sign`. -/
def predicateWord (cOp : CompareOperatorN) (sign : SigningN) (set : List Nat) (value i : Nat) :
    Nat :=
  packBits ((List.range 64).map fun j => compareBytes cOp sign (set.getD (i + j) 0) value)

/-- The combine rule on a whole word: overwrite for `Set`, bitwise AND for `And`, bitwise OR
for `Or`. -/
def combineWord (bOp : BooleanOperatorN) (prior new : Nat) : Nat :=
  match bOp with
  | BooleanOperatorN.Set => new
  | BooleanOperatorN.And => prior &&& new
  | BooleanOperatorN.Or => prior ||| new

/-- The accesses of the iterations of the block loop for the words `a, a + 1, ..., a + n - 1`:
per iteration the two lane loads and the store of the word. -/
def blockTrace (a n : Nat) : List Access :=
  (List.range' a n).flatMap fun w =>
    [Access.load (64 * w), Access.load (64 * w + 32), Access.store w]

/-- The preconditions of a call (section 6 of the spec): `length` is a non-negative `int`, the
element array holds at least `length` bytes, the scalar is a byte, and the match vector holds at
least `ceil(length / 64)` words. -/
def ValidCall (set : List Nat) (length value : Nat) (matchVector : List Nat) : Prop :=
  length < 2 ^ 31 ∧ length ≤ set.length ∧ (∀ x ∈ set, x < 256) ∧ value < 256 ∧
    (length + 63) / 64 ≤ matchVector.length

instance (set : List Nat) (length value : Nat) (matchVector : List Nat) :
    Decidable (ValidCall set length value matchVector) := by
  unfold ValidCall
  exact inferInstance

/-! ## Bit-level lemmas -/

theorem packBits_lt (l : List Bool) : packBits l < 2 ^ l.length := by
  induction l with
  | nil => simp [packBits]
  | cons b bs ih =>
    have hb : b.toNat ≤ 1 := Bool.toNat_le b
    simp only [packBits, List.length_cons, pow_succ]
    omega

theorem packBits_testBit (l : List Bool) (j : Nat) :
    (packBits l).testBit j = l.getD j false := by
  induction l generalizing j with
  | nil => simp [packBits]
  | cons b bs ih =>
    cases j with
    | zero =>
      cases b <;> simp [packBits, Nat.testBit_zero]
    | succ j =>
      have h : (b.toNat + 2 * packBits bs) / 2 = packBits bs := by
        have hb : b.toNat ≤ 1 := Bool.toNat_le b
        omega
      simp [packBits, Nat.testBit_succ, h, ih]

theorem movemaskBits_lt (m : List Nat) : movemaskBits m < 2 ^ m.length := by
  induction m with
  | nil => simp [movemaskBits]
  | cons b bs ih =>
    simp only [movemaskBits, List.length_cons, pow_succ]
    omega

theorem movemaskBits_testBit (m : List Nat) (j : Nat) :
    (movemaskBits m).testBit j = decide (m.getD j 0 / 128 % 2 = 1) := by
  induction m generalizing j with
  | nil => simp [movemaskBits]
  | cons b bs ih =>
    cases j with
    | zero =>
      simp only [movemaskBits, Nat.testBit_zero, List.getD_cons_zero]
      congr 1
      apply propext
      omega
    | succ j =>
      have h : (b / 128 % 2 + 2 * movemaskBits bs) / 2 = movemaskBits bs := by omega
      simp [movemaskBits, Nat.testBit_succ, h, ih]

theorem toUInt32_toInt32 (p : Nat) : toUInt32 (toInt32 p) = p % 2 ^ 32 := by
  unfold toUInt32 toInt32
  split <;> omega

theorem and_blockMask (L : Nat) (h : L < 2 ^ 32) : L &&& 0xFFFFFFC0 = 64 * (L / 64) := by
  apply Nat.eq_of_testBit_eq
  intro j
  have e1 : (0xFFFFFFC0 : Nat) = (2 ^ 26 - 1) <<< 6 := by decide
  have e2 : 64 * (L / 64) = (L >>> 6) <<< 6 := by
    rw [Nat.shiftLeft_eq, Nat.shiftRight_eq_div_pow]; omega
  rw [e2, Nat.testBit_and, e1, Nat.testBit_shiftLeft, Nat.testBit_shiftLeft,
    Nat.testBit_shiftRight, Nat.testBit_two_pow_sub_one]
  by_cases h6 : 6 ≤ j
  · have hj : 6 + (j - 6) = j := by omega
    by_cases h32 : j < 32
    · have : j - 6 < 26 := by omega
      simp [h6, hj, this]
    · have hL : L.testBit j = false := by
        apply Nat.testBit_lt_two_pow
        calc L < 2 ^ 32 := h
          _ ≤ 2 ^ j := Nat.pow_le_pow_right (by decide) (by omega)
      simp [hL, hj]
  · simp [h6]

theorem and_63 (L : Nat) : L &&& 63 = L % 64 := by
  have := Nat.and_pow_two_sub_one_eq_mod L 6
  simpa using this

/-- The byte at position `j` of the 32-byte lane loaded at offset `i`. -/
theorem lane_getD (set : List Nat) (i j : Nat) (hj : j < 32) :
    ((set.drop i).take 32).getD j 0 = set.getD (i + j) 0 := by
  simp [List.getD_eq_getElem?_getD, List.getElem?_take, hj, List.getElem?_drop]

theorem lane_length (set : List Nat) (i : Nat) (h : i + 32 ≤ set.length) :
    ((set.drop i).take 32).length = 32 := by
  simp; omega

theorem merged_testBit (a b : Nat) (ha : a < 2 ^ 32) (hb : b < 2 ^ 32) (j : Nat) :
    ((b <<< 32) % 2 ^ 64 ||| a).testBit j = if j < 32 then a.testBit j else b.testBit (j - 32) := by
  have hlt : b <<< 32 < 2 ^ 64 := by
    rw [Nat.shiftLeft_eq]
    calc b * 2 ^ 32 < 2 ^ 32 * 2 ^ 32 := Nat.mul_lt_mul_of_pos_right hb (by decide)
      _ = 2 ^ 64 := by decide
  rw [Nat.mod_eq_of_lt hlt, Nat.testBit_or, Nat.testBit_shiftLeft]
  by_cases hj : j < 32
  · simp [hj, show ¬ (32 ≤ j) by omega]
  · have ha' : a.testBit j = false := by
      apply Nat.testBit_lt_two_pow
      calc a < 2 ^ 32 := ha
        _ ≤ 2 ^ j := Nat.pow_le_pow_right (by decide) (by omega)
    simp [hj, ha', show 32 ≤ j by omega]

theorem not64_testBit (x j : Nat) :
    (x ^^^ (2 ^ 64 - 1)).testBit j = (x.testBit j ^^ decide (j < 64)) := by
  rw [Nat.testBit_xor, Nat.testBit_two_pow_sub_one]

/-- The merge of the two lane bit masks into one word, with the optional negation, has the bits
of the scalar reference. -/
theorem mergedWord_eq (mask1 mask2 : List Nat) (h1 : mask1.length = 32) (h2 : mask2.length = 32)
    (neg : Bool) (f : Nat → Bool)
    (hf1 : ∀ j, j < 32 → (movemaskBits mask1).testBit j = (f j != neg))
    (hf2 : ∀ j, j < 32 → (movemaskBits mask2).testBit j = (f (32 + j) != neg)) :
    (if neg then
        ((toUInt32 (_mm256_movemask_epi8 mask2) <<< 32) % 2 ^ 64
          ||| toUInt32 (_mm256_movemask_epi8 mask1)) ^^^ (2 ^ 64 - 1)
      else
        (toUInt32 (_mm256_movemask_epi8 mask2) <<< 32) % 2 ^ 64
          ||| toUInt32 (_mm256_movemask_epi8 mask1))
      = packBits ((List.range 64).map f) := by
  have l1 : movemaskBits mask1 < 2 ^ 32 := by simpa [h1] using movemaskBits_lt mask1
  have l2 : movemaskBits mask2 < 2 ^ 32 := by simpa [h2] using movemaskBits_lt mask2
  have e1 : toUInt32 (_mm256_movemask_epi8 mask1) = movemaskBits mask1 := by
    rw [_mm256_movemask_epi8, toUInt32_toInt32, Nat.mod_eq_of_lt l1]
  have e2 : toUInt32 (_mm256_movemask_epi8 mask2) = movemaskBits mask2 := by
    rw [_mm256_movemask_epi8, toUInt32_toInt32, Nat.mod_eq_of_lt l2]
  rw [e1, e2]
  apply Nat.eq_of_testBit_eq
  intro j
  rw [packBits_testBit]
  have hbit := merged_testBit _ _ l1 l2 j
  by_cases hj : j < 64
  · have hget : ((List.range 64).map f).getD j false = f j := by
      simp [List.getD_eq_getElem?_getD, List.getElem?_map, List.getElem?_range hj]
    rw [hget]
    by_cases hj32 : j < 32
    · have hb2 : (movemaskBits mask1).testBit j = (f j != neg) := hf1 j hj32
      cases neg
      · rw [if_neg (by simp), hbit, if_pos hj32, hb2]; simp
      · rw [if_pos rfl, not64_testBit, hbit, if_pos hj32, hb2]; simp [hj]
    · have hb2 : (movemaskBits mask2).testBit (j - 32) = (f j != neg) := by
        have := hf2 (j - 32) (by omega)
        rwa [show 32 + (j - 32) = j by omega] at this
      cases neg
      · rw [if_neg (by simp), hbit, if_neg hj32, hb2]; simp
      · rw [if_pos rfl, not64_testBit, hbit, if_neg hj32, hb2]; simp [hj]
  · have hget : ((List.range 64).map f).getD j false = false := by
      have : (List.range 64)[j]? = none := by
        apply List.getElem?_eq_none; simp; omega
      simp [List.getD_eq_getElem?_getD, List.getElem?_map, this]
    rw [hget]
    have hb2 : (movemaskBits mask2).testBit (j - 32) = false := by
      apply Nat.testBit_lt_two_pow
      calc movemaskBits mask2 < 2 ^ 32 := l2
        _ ≤ 2 ^ (j - 32) := Nat.pow_le_pow_right (by decide) (by omega)
    cases neg
    · rw [if_neg (by simp), hbit, if_neg (by omega), hb2]
    · rw [if_pos rfl, not64_testBit, hbit, if_neg (by omega), hb2]; simp [hj]

theorem mergedWord_plain (mask1 mask2 : List Nat) (f : Nat → Bool) (h1 : mask1.length = 32)
    (h2 : mask2.length = 32)
    (hf1 : ∀ j, j < 32 → (movemaskBits mask1).testBit j = f j)
    (hf2 : ∀ j, j < 32 → (movemaskBits mask2).testBit j = f (32 + j)) :
    (toUInt32 (_mm256_movemask_epi8 mask2) <<< 32) % 2 ^ 64
        ||| toUInt32 (_mm256_movemask_epi8 mask1)
      = packBits ((List.range 64).map f) := by
  have := mergedWord_eq mask1 mask2 h1 h2 false f (by simpa using hf1) (by simpa using hf2)
  simpa using this

theorem mergedWord_negated (mask1 mask2 : List Nat) (f : Nat → Bool) (h1 : mask1.length = 32)
    (h2 : mask2.length = 32)
    (hf1 : ∀ j, j < 32 → (movemaskBits mask1).testBit j = !f j)
    (hf2 : ∀ j, j < 32 → (movemaskBits mask2).testBit j = !f (32 + j)) :
    ((toUInt32 (_mm256_movemask_epi8 mask2) <<< 32) % 2 ^ 64
        ||| toUInt32 (_mm256_movemask_epi8 mask1)) ^^^ (2 ^ 64 - 1)
      = packBits ((List.range 64).map f) := by
  have := mergedWord_eq mask1 mask2 h1 h2 true f (by simpa using hf1) (by simpa using hf2)
  simpa using this

theorem getD_zipWith (f : Nat → Nat → Nat) (a b : List Nat) (j : Nat) (ha : j < a.length)
    (hb : j < b.length) : (List.zipWith f a b).getD j 0 = f (a.getD j 0) (b.getD j 0) := by
  induction a generalizing b j with
  | nil => simp at ha
  | cons x xs ih =>
    cases b with
    | nil => simp at hb
    | cons y ys =>
      cases j with
      | zero => simp
      | succ j =>
        have := ih ys j (by simpa using ha) (by simpa using hb)
        simpa using this

theorem getD_replicate (c j n : Nat) (h : j < n) : (List.replicate n c).getD j 0 = c := by
  simp [List.getD_eq_getElem?_getD, List.getElem?_replicate, h]

theorem set1_bias : _mm256_set1_epi8 (-128) = List.replicate 32 128 := by decide

theorem set1_value (value : Nat) (hv : value < 256) :
    _mm256_set1_epi8 (value : Int) = List.replicate 32 value := by
  unfold _mm256_set1_epi8
  congr 1
  omega

theorem getD_lt_of_bytes (set : List Nat) (hb : ∀ x ∈ set, x < 256) (j : Nat) :
    set.getD j 0 < 256 := by
  rw [List.getD_eq_getElem?_getD]
  cases h : set[j]? with
  | none => simp
  | some x => exact hb x (List.getElem?_mem h)

theorem sub_length (a b : List Nat) (ha : a.length = 32) (hb : b.length = 32) :
    (_mm256_sub_epi8 a b).length = 32 := by
  simp [_mm256_sub_epi8, ha, hb]

theorem cmpgt_length (a b : List Nat) (ha : a.length = 32) (hb : b.length = 32) :
    (_mm256_cmpgt_epi8 a b).length = 32 := by
  simp [_mm256_cmpgt_epi8, ha, hb]

theorem cmpeq_length (a b : List Nat) (ha : a.length = 32) (hb : b.length = 32) :
    (_mm256_cmpeq_epi8 a b).length = 32 := by
  simp [_mm256_cmpeq_epi8, ha, hb]

theorem sub_getD (a b : List Nat) (j : Nat) (ha : a.length = 32) (hb : b.length = 32)
    (hj : j < 32) :
    (_mm256_sub_epi8 a b).getD j 0 = (a.getD j 0 + 256 - b.getD j 0) % 256 :=
  getD_zipWith _ a b j (by omega) (by omega)

theorem cmpgt_getD (a b : List Nat) (j : Nat) (ha : a.length = 32) (hb : b.length = 32)
    (hj : j < 32) :
    (_mm256_cmpgt_epi8 a b).getD j 0
      = if toInt8 (a.getD j 0) > toInt8 (b.getD j 0) then 0xFF else 0x00 :=
  getD_zipWith _ a b j (by omega) (by omega)

theorem cmpeq_getD (a b : List Nat) (j : Nat) (ha : a.length = 32) (hb : b.length = 32)
    (hj : j < 32) :
    (_mm256_cmpeq_epi8 a b).getD j 0 = if a.getD j 0 = b.getD j 0 then 0xFF else 0x00 :=
  getD_zipWith _ a b j (by omega) (by omega)

theorem compareLanes_case (cOp : CompareOperatorN) (sign : SigningN) (set : List Nat)
    (value i : Nat) (block1 block2 : List Nat) (h1 : block1.length = 32)
    (h2 : block2.length = 32) (hb1 : ∀ j, j < 32 → block1.getD j 0 = set.getD (i + j) 0)
    (hb2 : ∀ j, j < 32 → block2.getD j 0 = set.getD (i + (32 + j)) 0)
    (hbytes : ∀ x ∈ set, x < 256) (hv : value < 256) :
    compareLanes cOp sign (List.replicate 32 128)
        (if sign = SigningN.Unsigned then
          _mm256_sub_epi8 (List.replicate 32 value) (List.replicate 32 128)
        else List.replicate 32 value) block1 block2
      = packBits ((List.range 64).map fun j =>
          compareBytes cOp sign (set.getD (i + j) 0) value) := by
  have hB1 : ∀ j, j < 32 → block1.getD j 0 < 256 := fun j hj => by
    rw [hb1 j hj]; exact getD_lt_of_bytes set hbytes _
  have hB2 : ∀ j, j < 32 → block2.getD j 0 < 256 := fun j hj => by
    rw [hb2 j hj]; exact getD_lt_of_bytes set hbytes _
  unfold compareLanes
  cases cOp <;> cases sign <;>
    simp only [reduceCtorEq, if_false, if_true, or_self, or_false, false_or, or_true, true_or]
  all_goals
    have hr : (List.replicate 32 128).length = 32 := List.length_replicate _ _
    have hrv : (List.replicate 32 value).length = 32 := List.length_replicate _ _
    have hsv := sub_length _ _ hrv hr
    have hs1 := sub_length _ _ h1 hr
    have hs2 := sub_length _ _ h2 hr
    first
      | refine mergedWord_plain _ _ _ (cmpgt_length _ _ ?_ ?_) (cmpgt_length _ _ ?_ ?_) ?_ ?_
      | refine mergedWord_plain _ _ _ (cmpeq_length _ _ ?_ ?_) (cmpeq_length _ _ ?_ ?_) ?_ ?_
      | refine mergedWord_negated _ _ _ (cmpgt_length _ _ ?_ ?_) (cmpgt_length _ _ ?_ ?_) ?_ ?_
      | refine mergedWord_negated _ _ _ (cmpeq_length _ _ ?_ ?_) (cmpeq_length _ _ ?_ ?_) ?_ ?_
  all_goals first
    | (with_reducible assumption)
    | (intro j hj
       have hx1 := hB1 j hj
       have hx2 := hB2 j hj
       rw [movemaskBits_testBit]
       simp (disch := with_reducible assumption) only [cmpgt_getD, cmpeq_getD, sub_getD, getD_replicate]
       first
         | rw [← hb1 j hj]
         | rw [← hb2 j hj]
       generalize block1.getD j 0 = x at hx1
       generalize block2.getD j 0 = y at hx2
       simp only [compareBytes, interpret, toInt8]
       split_ifs <;> simp <;> omega)

/-- One block of the loop: with the bias register and the value block built before the loop,
the two loads succeed and the result is the scalar reference word of the block. -/
theorem blockResult_eq (cOp : CompareOperatorN) (sign : SigningN) (m : Memory) (value i : Nat)
    (hi : i + 64 ≤ m.set.length) (h31 : i + 64 < 2 ^ 31) (hbytes : ∀ x ∈ m.set, x < 256)
    (hv : value < 256) :
    blockResult cOp sign (_mm256_set1_epi8 (-128))
        (if sign = SigningN.Unsigned then
          _mm256_sub_epi8 (_mm256_set1_epi8 (value : Int)) (_mm256_set1_epi8 (-128))
        else _mm256_set1_epi8 (value : Int)) i m
      = some (predicateWord cOp sign m.set value i,
          { m with trace := m.trace ++ [Access.load i, Access.load (i + 32)] }) := by
  have e := compareLanes_case cOp sign m.set value i ((m.set.drop i).take 32)
    ((m.set.drop (i + 32)).take 32) (lane_length _ _ (by omega)) (lane_length _ _ (by omega))
    (fun j hj => lane_getD _ _ _ hj)
    (fun j hj => by rw [lane_getD _ _ _ hj, Nat.add_assoc]) hbytes hv
  rw [set1_bias, set1_value value hv]
  unfold blockResult Memory.loadu _mm256_loadu_si256 intAdd
  simp only [if_pos (show i + 32 ≤ m.set.length by omega), if_pos (show i + 32 < 2 ^ 31 by omega),
    if_pos (show i + 32 + 32 ≤ m.set.length by omega)]
  rw [e]
  simp [predicateWord]

theorem mergeResult_eq (bOp : BooleanOperatorN) (i result : Nat) (m : Memory)
    (h : i >>> 6 < m.matchVector.length) :
    mergeResult bOp i result m
      = some { m with
          matchVector :=
            m.matchVector.set (i >>> 6) (combineWord bOp (m.matchVector.getD (i >>> 6) 0) result)
          trace := m.trace ++ [Access.store (i >>> 6)] } := by
  cases bOp <;>
    simp [mergeResult, Memory.writeWord, Memory.readWord, combineWord, h,
      List.getElem?_eq_getElem h]

theorem shiftRight_block (a : Nat) : (64 * a) >>> 6 = a := by
  rw [Nat.shiftRight_eq_div_pow]; omega

theorem blockTrace_succ (a n : Nat) :
    blockTrace a (n + 1)
      = [Access.load (64 * a), Access.load (64 * a + 32), Access.store a] ++ blockTrace (a + 1) n := by
  simp [blockTrace, List.range'_succ]

/-- The block loop, started at word `a` with `n` blocks left: it runs to the end, leaves `i` at
the block length, combines the scalar reference into the words `a, ..., a + n - 1`, and leaves
every other word and the element array as they were. -/
theorem blockLoop_spec (cOp : CompareOperatorN) (bOp : BooleanOperatorN) (sign : SigningN)
    (value : Nat) (hv : value < 256) (n : Nat) :
    ∀ (fuel a : Nat) (m : Memory), n ≤ fuel → 64 * (a + n) ≤ m.set.length →
      64 * (a + n) < 2 ^ 31 → a + n ≤ m.matchVector.length → (∀ x ∈ m.set, x < 256) →
      ∃ m', blockLoop cOp bOp sign (_mm256_set1_epi8 (-128))
          (if sign = SigningN.Unsigned then
            _mm256_sub_epi8 (_mm256_set1_epi8 (value : Int)) (_mm256_set1_epi8 (-128))
          else _mm256_set1_epi8 (value : Int)) (64 * (a + n)) fuel (64 * a) m
            = some (64 * (a + n), m') ∧
        m'.set = m.set ∧ m'.matchVector.length = m.matchVector.length ∧
        (∀ w, a ≤ w → w < a + n → m'.matchVector[w]? =
          some (combineWord bOp (m.matchVector.getD w 0)
            (predicateWord cOp sign m.set value (64 * w)))) ∧
        (∀ w, (w < a ∨ a + n ≤ w) → m'.matchVector[w]? = m.matchVector[w]?) ∧
        m'.trace = m.trace ++ blockTrace a n := by
  induction n with
  | zero =>
    intro fuel a m _ _ _ _ _
    refine ⟨m, ?_, rfl, rfl, ?_, ?_, ?_⟩
    · cases fuel <;> simp [blockLoop]
    · intro w h1 h2; omega
    · intro w _; rfl
    · simp [blockTrace]
  | succ n ih =>
    intro fuel a m hfuel hset h31 hmv hbytes
    obtain ⟨fuel, rfl⟩ : ∃ f, fuel = f + 1 := ⟨fuel - 1, by omega⟩
    have hlt : 64 * a < 64 * (a + (n + 1)) := by omega
    have hres := blockResult_eq cOp sign m value (64 * a) (by omega) (by omega) hbytes hv
    have hw : (64 * a) >>> 6 < m.matchVector.length := by rw [shiftRight_block]; omega
    have hmerge := mergeResult_eq bOp (64 * a)
      (predicateWord cOp sign m.set value (64 * a))
      { m with trace := m.trace ++ [Access.load (64 * a), Access.load (64 * a + 32)] } hw
    have hadd : intAdd (64 * a) 64 = some (64 * (a + 1)) := by
      simp [intAdd, show 64 * a + 64 < 2 ^ 31 by omega]; omega
    have hbl : 64 * (a + (n + 1)) = 64 * (a + 1 + n) := by omega
    obtain ⟨m', hrun, hs, hlen, hwr, hfr, htr⟩ := ih fuel (a + 1)
      { m with
        matchVector := m.matchVector.set ((64 * a) >>> 6)
          (combineWord bOp (m.matchVector.getD ((64 * a) >>> 6) 0)
            (predicateWord cOp sign m.set value (64 * a)))
        trace := m.trace ++ [Access.load (64 * a), Access.load (64 * a + 32)]
          ++ [Access.store ((64 * a) >>> 6)] }
      (by omega) (by simpa using (by omega : 64 * (a + 1 + n) ≤ m.set.length))
      (by omega) (by simpa using (by omega : a + 1 + n ≤ m.matchVector.length)) hbytes
    refine ⟨m', ?_, ?_, ?_, ?_, ?_, ?_⟩
    · rw [blockLoop, if_pos hlt, hres]
      simp only []
      rw [hmerge]
      simp only [hadd]
      rw [hbl]
      exact hrun
    · simpa using hs
    · simpa using hlen
    · intro w h1 h2
      by_cases hwa : w = a
      · subst hwa
        rw [hfr w (Or.inl (by omega))]
        simp only [shiftRight_block]
        rw [List.getElem?_set_self (by omega)]
      · rw [hwr w (by omega) (by omega)]
        simp only [shiftRight_block]
        rw [List.getD_eq_getElem?_getD, List.getElem?_set_ne (by omega),
          ← List.getD_eq_getElem?_getD]
    · intro w hw'
      rw [hfr w (by omega)]
      simp only [shiftRight_block]
      rw [List.getElem?_set_ne (by omega)]
    · rw [htr, blockTrace_succ]
      simp [shiftRight_block]

/-- What a run of `WhereN` does, for a remainder handler meeting its contract (needed only when
there is a remainder): it succeeds;
every full-block word is the combination of its prior content with the scalar reference under
`sign`; the word of the remainder, when there is one, is what the handler returns for the
trailing sub-array under `Unsigned`; all other words and the element array are untouched. -/
theorem WhereN_spec (ws : RemainderHandler) (cOp : CompareOperatorN)
    (bOp : BooleanOperatorN) (sign : SigningN) (set : List Nat) (length value : Nat)
    (matchVector : List Nat) (h : ValidCall set length value matchVector)
    (hws : length % 64 ≠ 0 → RemainderContract ws) :
    ∃ m', WhereN ws cOp bOp sign set length value matchVector = some m' ∧
      m'.set = set ∧ m'.matchVector.length = matchVector.length ∧
      (∀ w, w < length / 64 → m'.matchVector[w]? =
        some (combineWord bOp (matchVector.getD w 0)
          (predicateWord cOp sign set value (64 * w)))) ∧
      (∀ w, (length + 63) / 64 ≤ w → m'.matchVector[w]? = matchVector[w]?) ∧
      (length % 64 ≠ 0 → ∃ word',
        ws cOp bOp SigningN.Unsigned (set.drop (64 * (length / 64))) (length % 64) value
          (matchVector.getD (length / 64) 0) = some word' ∧
        m'.matchVector[length / 64]? = some word') ∧
      m'.trace = blockTrace 0 (length / 64) ++
        (if length % 64 ≠ 0 then
          [Access.remainder (64 * (length / 64)) (length % 64) (length / 64)] else []) := by
  obtain ⟨hL, hset, hbytes, hv, hmv⟩ := h
  obtain ⟨m1, hrun, hs, hlen, hwr, hfr, htr⟩ := blockLoop_spec cOp bOp sign value hv (length / 64)
    length 0 { set := set, matchVector := matchVector, trace := [] }
    (Nat.div_le_self _ _) (by simp only []; omega) (by omega) (by simp only []; omega) hbytes
  simp only [Nat.zero_add, Nat.mul_zero] at hrun hwr hfr hs hlen
  simp only [List.nil_append] at htr
  have hmask := and_blockMask length (by omega)
  unfold WhereN
  simp only [hmask, hrun]
  unfold remainderCall
  rw [and_63]
  by_cases hr : length % 64 = 0
  · rw [if_neg (by simpa using hr)]
    refine ⟨m1, rfl, hs, hlen, ?_, ?_, ?_, ?_⟩
    · intro w hw; exact hwr w (Nat.zero_le _) hw
    · intro w hw; exact hfr w (Or.inr (by omega))
    · intro hne; exact absurd hr hne
    · rw [htr, if_neg (by simpa using hr)]; simp
  · rw [if_pos hr]
    have hk : length / 64 < m1.matchVector.length := by rw [hlen]; omega
    have hkm : length / 64 < matchVector.length := by omega
    have hprior : m1.matchVector[length / 64]? = some (matchVector.getD (length / 64) 0) := by
      rw [hfr _ (Or.inr (Nat.le_refl _)), List.getD_eq_getElem?_getD,
        List.getElem?_eq_getElem hkm]
      rfl
    have hsub : length - 64 * (length / 64) = length % 64 := by omega
    obtain ⟨word', hcall, _⟩ := hws hr cOp bOp SigningN.Unsigned (set.drop (64 * (length / 64)))
      (length % 64) value (matchVector.getD (length / 64) 0)
      (by rw [List.length_drop]; omega) (by omega)
    simp only [Memory.readWord, shiftRight_block, hprior, hs, hsub, hcall]
    refine ⟨_, rfl, rfl, ?_, ?_, ?_, ?_, ?_⟩
    · simpa using hlen
    · intro w hw
      simp only []
      rw [List.getElem?_set_ne (by omega)]
      exact hwr w (Nat.zero_le _) hw
    · intro w hw
      simp only []
      rw [List.getElem?_set_ne (by omega)]
      exact hfr w (Or.inr (by omega))
    · intro _
      refine ⟨word', rfl, ?_⟩
      simp only []
      rw [List.getElem?_set_self hk]
    · simp only [htr, if_pos hr]

/-- The three nested selections of the dispatcher land on the instance of `WhereN` with the
requested operator, combine mode and signedness. -/
theorem Where_eq_WhereN (ws : RemainderHandler) (cOp : CompareOperatorN) (bOp : BooleanOperatorN)
    (sign : SigningN) (set : List Nat) (length value : Nat) (matchVector : List Nat) :
    Where ws cOp bOp sign set length value matchVector
      = WhereN ws cOp bOp sign set length value matchVector := by
  cases cOp <;> cases bOp <;> cases sign <;> rfl

theorem writeBit_testBit (w j : Nat) (b : Bool) (i : Nat) :
    (writeBit w j b).testBit i = if i = j then b else w.testBit i := by
  unfold writeBit
  by_cases h : i = j
  · subst h
    cases b <;> simp [Nat.testBit_two_pow_self]
  · have h' : ¬ j = i := fun e => h e.symm
    cases b <;> simp [h, Nat.testBit_two_pow, h']

theorem whereSingleBits_testBit (cOp : CompareOperatorN) (bOp : BooleanOperatorN) (T : SigningN)
    (value : Nat) (xs : List Nat) :
    ∀ (j w i : Nat), (whereSingleBits cOp bOp T value xs j w).testBit i =
      if j ≤ i ∧ i < j + xs.length then
        combineBit bOp (w.testBit i) (compareBytes cOp T (xs.getD (i - j) 0) value)
      else w.testBit i := by
  induction xs with
  | nil =>
    intro j w i
    rw [whereSingleBits, if_neg]
    simp only [List.length_nil]; omega
  | cons x xs ih =>
    intro j w i
    rw [whereSingleBits, ih, writeBit_testBit]
    by_cases hij : i = j
    · subst hij
      simp
    · by_cases hlt : j + 1 ≤ i ∧ i < j + 1 + xs.length
      · have h2 : j ≤ i ∧ i < j + (x :: xs).length := by
          simp only [List.length_cons]; omega
        have h3 : i - j = (i - (j + 1)) + 1 := by omega
        rw [if_pos hlt, if_pos h2, if_neg hij, h3]
        simp
      · have h2 : ¬ (j ≤ i ∧ i < j + (x :: xs).length) := by
          simp only [List.length_cons]; omega
        rw [if_neg hlt, if_neg h2, if_neg hij]

/-- The model of `WhereSingle` meets the contract of the remainder handler. -/
theorem WhereSingle_contract : RemainderContract WhereSingle := by
  intro cOp bOp T set length value word hlen _
  refine ⟨whereSingleBits cOp bOp T value (set.take length) 0 word,
    by simp [WhereSingle, hlen], ?_⟩
  intro j hj
  rw [whereSingleBits_testBit]
  have hl : (set.take length).length = length := by simp [hlen]
  rw [if_pos (by omega)]
  simp [List.getElem?_take, hj]

/-- The model of `WhereSingle` leaves the bits beyond the sub-range as they were. -/
theorem WhereSingle_high (cOp : CompareOperatorN) (bOp : BooleanOperatorN) (T : SigningN)
    (set : List Nat) (length value word word' j : Nat)
    (h : WhereSingle cOp bOp T set length value word = some word') (hj : length ≤ j) :
    word'.testBit j = word.testBit j := by
  unfold WhereSingle at h
  split at h
  · rename_i hlen
    injection h with h
    subst h
    rw [whereSingleBits_testBit]
    have hl : (set.take length).length = length := by simp [hlen]
    rw [if_neg (by omega)]
  · exact absurd h (by simp)

theorem combineWord_testBit (bOp : BooleanOperatorN) (prior new j : Nat) :
    (combineWord bOp prior new).testBit j = combineBit bOp (prior.testBit j) (new.testBit j) := by
  cases bOp <;> simp [combineWord, combineBit]

theorem predicateWord_testBit (cOp : CompareOperatorN) (sign : SigningN) (set : List Nat)
    (value i j : Nat) (hj : j < 64) :
    (predicateWord cOp sign set value i).testBit j
      = compareBytes cOp sign (set.getD (i + j) 0) value := by
  unfold predicateWord
  rw [packBits_testBit]
  simp [List.getElem?_map, List.getElem?_range hj]

theorem predicateWord_lt (cOp : CompareOperatorN) (sign : SigningN) (set : List Nat)
    (value i : Nat) : predicateWord cOp sign set value i < 2 ^ 64 := by
  unfold predicateWord
  have := packBits_lt ((List.range 64).map fun j =>
    compareBytes cOp sign (set.getD (i + j) 0) value)
  simpa using this

/-- What a run of `Where` does, for a remainder handler meeting its contract (needed only when
there is a remainder). The run succeeds;
the element array and the number of words are unchanged; every full-block word is the combination
of its prior content with the scalar reference under `signing`; words from `ceil(length / 64)` on
are untouched; the trace is the one of the block loop followed by the hand-over of the remainder;
and every bit below `length` is the prior bit combined with the predicate on the element, read
under `signing` inside the full blocks and under `Unsigned` in the remainder. -/
theorem Where_spec (ws : RemainderHandler) (cOp : CompareOperatorN)
    (bOp : BooleanOperatorN) (signing : SigningN) (set : List Nat) (length value : Nat)
    (matchVector : List Nat) (h : ValidCall set length value matchVector)
    (hws : length % 64 ≠ 0 → RemainderContract ws) :
    ∃ m', Where ws cOp bOp signing set length value matchVector = some m' ∧
      m'.set = set ∧ m'.matchVector.length = matchVector.length ∧
      (∀ w, w < length / 64 → m'.matchVector[w]? =
        some (combineWord bOp (matchVector.getD w 0)
          (predicateWord cOp signing set value (64 * w)))) ∧
      (∀ w, (length + 63) / 64 ≤ w → m'.matchVector[w]? = matchVector[w]?) ∧
      m'.trace = blockTrace 0 (length / 64) ++
        (if length % 64 ≠ 0 then
          [Access.remainder (64 * (length / 64)) (length % 64) (length / 64)] else []) ∧
      ∀ i, i < length → bitAt m'.matchVector i =
        combineBit bOp (bitAt matchVector i)
          (compareBytes cOp (if i < 64 * (length / 64) then signing else SigningN.Unsigned)
            (set.getD i 0) value) := by
  obtain ⟨m', hrun, hset, hlen, hwr, hfr, htail, htr⟩ :=
    WhereN_spec ws cOp bOp signing set length value matchVector h hws
  refine ⟨m', by rw [Where_eq_WhereN]; exact hrun, hset, hlen, hwr, hfr, htr, ?_⟩
  intro i hi
  unfold bitAt
  by_cases hblk : i < 64 * (length / 64)
  · have hw := hwr (i / 64) (by omega)
    rw [if_pos hblk, List.getD_eq_getElem?_getD, hw, Option.getD_some, combineWord_testBit,
      predicateWord_testBit _ _ _ _ _ _ (Nat.mod_lt _ (by decide)),
      show 64 * (i / 64) + i % 64 = i by omega]
  · have hr : length % 64 ≠ 0 := by omega
    have hk : i / 64 = length / 64 := by omega
    obtain ⟨word', hcall, hword⟩ := htail hr
    obtain ⟨w2, hcall2, hbits⟩ := hws hr cOp bOp SigningN.Unsigned (set.drop (64 * (length / 64)))
      (length % 64) value (matchVector.getD (length / 64) 0)
      (by rw [List.length_drop]; have := h.2.1; omega) (by omega)
    rw [hcall] at hcall2
    injection hcall2 with hcall2
    subst hcall2
    rw [if_neg hblk, hk, List.getD_eq_getElem?_getD m'.matchVector, hword, Option.getD_some,
      hbits (i % 64) (by omega)]
    congr 2
    simp only [List.getD_eq_getElem?_getD, List.getElem?_drop]
    rw [show 64 * (length / 64) + i % 64 = i by omega]

/-! ## Properties of `Where` -/

/-- C1, at the input where it fails. The claim asks every bit below `length` to be the prior bit
combined with the comparison read under the requested signedness. For `length = 1`, the single
element `0xFF`, value `0x01`, `GreaterThan`, `Set` and `Signed`, the element falls in the
remainder, which `WhereN` hands to `WhereSingle<cOp, bOp, unsigned __int8>`: the run ends with
bit 0 set, although the signed comparison `-1 > 1` is false. -/
theorem C1_signed_remainder_bit :
    (Where WhereSingle CompareOperatorN.GreaterThan BooleanOperatorN.Set SigningN.Signed
        [0xFF] 1 0x01 [0]).map (fun m => bitAt m.matchVector 0) = some true ∧
      combineBit BooleanOperatorN.Set (bitAt [0] 0)
        (compareBytes CompareOperatorN.GreaterThan SigningN.Signed ([0xFF].getD 0 0) 0x01)
          = false := by
  decide

/-- C2, at the input where it fails. With 65 elements all `0xFF`, value `0x01`, `GreaterThan`,
`Set` and `Signed`, the 64 elements of the full block are marked false, as the claim says, but
element 64, which falls in the remainder, is marked true: the final match vector is `[0, 1]`. -/
theorem C2_signed_boundary_remainder :
    (Where WhereSingle CompareOperatorN.GreaterThan BooleanOperatorN.Set SigningN.Signed
        (List.replicate 65 0xFF) 65 0x01 [0, 0]).map (fun m => m.matchVector) = some [0, 1] ∧
      (List.replicate 65 0xFF).getD 64 0 = 0xFF ∧ bitAt [0, 1] 63 = false ∧
      bitAt [0, 1] 64 = true := by
  decide

theorem validCall_replicate (set : List Nat) (length value : Nat) (matchVector : List Nat)
    (h : ValidCall set length value matchVector) (x : Nat) :
    ValidCall set length value (List.replicate ((length + 63) / 64) x) := by
  obtain ⟨h1, h2, h3, h4, _⟩ := h
  exact ⟨h1, h2, h3, h4, by rw [List.length_replicate]⟩

theorem bitAt_replicate (n x i : Nat) (h : i / 64 < n) :
    bitAt (List.replicate n x) i = x.testBit (i % 64) := by
  unfold bitAt
  rw [List.getD_eq_getElem?_getD, List.getElem?_replicate, if_pos h, Option.getD_some]

/-- C3. Combine identities: for every length, operator, signedness, element array and value,
`And` run on the match vector of `ceil(length / 64)` all-ones words and `Or` run on the match
vector of all-zeros words both produce, on every bit below `length`, the bit that `Set`
produces (whatever the prior content given to `Set`). -/
theorem C3_combine_identities (ws : RemainderHandler) (hws : RemainderContract ws)
    (cOp : CompareOperatorN) (signing : SigningN) (set : List Nat) (length value : Nat)
    (prior : List Nat) (h : ValidCall set length value prior) :
    ∃ mAnd mOr mSet,
      Where ws cOp BooleanOperatorN.And signing set length value
        (List.replicate ((length + 63) / 64) (2 ^ 64 - 1)) = some mAnd ∧
      Where ws cOp BooleanOperatorN.Or signing set length value
        (List.replicate ((length + 63) / 64) 0) = some mOr ∧
      Where ws cOp BooleanOperatorN.Set signing set length value prior = some mSet ∧
      ∀ i, i < length →
        bitAt mAnd.matchVector i = bitAt mSet.matchVector i ∧
        bitAt mOr.matchVector i = bitAt mSet.matchVector i := by
  obtain ⟨mA, hA, _, _, _, _, _, bA⟩ := Where_spec ws cOp BooleanOperatorN.And signing set length
    value _ (validCall_replicate set length value prior h (2 ^ 64 - 1)) (fun _ => hws)
  obtain ⟨mO, hO, _, _, _, _, _, bO⟩ := Where_spec ws cOp BooleanOperatorN.Or signing set length
    value _ (validCall_replicate set length value prior h 0) (fun _ => hws)
  obtain ⟨mS, hS, _, _, _, _, _, bS⟩ := Where_spec ws cOp BooleanOperatorN.Set signing set length
    value prior h (fun _ => hws)
  refine ⟨mA, mO, mS, hA, hO, hS, ?_⟩
  intro i hi
  have hw : i / 64 < (length + 63) / 64 := by omega
  rw [bA i hi, bO i hi, bS i hi, bitAt_replicate _ _ _ hw, bitAt_replicate _ _ _ hw,
    Nat.testBit_two_pow_sub_one]
  simp [combineBit, Nat.mod_lt]

/-- C3 at a concrete input: 70 elements, the model of `WhereSingle` as the handler. -/
theorem C3_combine_identities_witness :
    ∃ mAnd mOr mSet,
      Where WhereSingle CompareOperatorN.LessThan BooleanOperatorN.And SigningN.Signed
        (List.range 70) 70 40 (List.replicate ((70 + 63) / 64) (2 ^ 64 - 1)) = some mAnd ∧
      Where WhereSingle CompareOperatorN.LessThan BooleanOperatorN.Or SigningN.Signed
        (List.range 70) 70 40 (List.replicate ((70 + 63) / 64) 0) = some mOr ∧
      Where WhereSingle CompareOperatorN.LessThan BooleanOperatorN.Set SigningN.Signed
        (List.range 70) 70 40 [5, 9] = some mSet ∧
      ∀ i, i < 70 →
        bitAt mAnd.matchVector i = bitAt mSet.matchVector i ∧
        bitAt mOr.matchVector i = bitAt mSet.matchVector i :=
  C3_combine_identities WhereSingle WhereSingle_contract CompareOperatorN.LessThan
    SigningN.Signed (List.range 70) 70 40 [5, 9] (by decide)

/-- C4. `Set` overwrites: for any two prior match vectors, the runs with combine `Set` agree on
every bit below `length`, and every word of a full block is the same word in both results. -/
theorem C4_set_overwrites (ws : RemainderHandler) (hws : RemainderContract ws)
    (cOp : CompareOperatorN) (signing : SigningN) (set : List Nat) (length value : Nat)
    (p q : List Nat) (hp : ValidCall set length value p) (hq : ValidCall set length value q) :
    ∃ mp mq,
      Where ws cOp BooleanOperatorN.Set signing set length value p = some mp ∧
      Where ws cOp BooleanOperatorN.Set signing set length value q = some mq ∧
      (∀ i, i < length → bitAt mp.matchVector i = bitAt mq.matchVector i) ∧
      ∀ w, w < length / 64 →
        ∃ x, mp.matchVector[w]? = some x ∧ mq.matchVector[w]? = some x := by
  obtain ⟨mp, hP, _, _, wP, _, _, bP⟩ := Where_spec ws cOp BooleanOperatorN.Set signing set length
    value p hp (fun _ => hws)
  obtain ⟨mq, hQ, _, _, wQ, _, _, bQ⟩ := Where_spec ws cOp BooleanOperatorN.Set signing set length
    value q hq (fun _ => hws)
  refine ⟨mp, mq, hP, hQ, ?_, ?_⟩
  · intro i hi
    rw [bP i hi, bQ i hi]
    rfl
  · intro w hw
    exact ⟨_, wP w hw, by rw [wQ w hw]; rfl⟩

/-- C4 at a concrete input: 70 elements and two different prior match vectors. -/
theorem C4_set_overwrites_witness :
    ∃ mp mq,
      Where WhereSingle CompareOperatorN.GreaterThanOrEqual BooleanOperatorN.Set
        SigningN.Unsigned (List.range 70) 70 33 [0, 0] = some mp ∧
      Where WhereSingle CompareOperatorN.GreaterThanOrEqual BooleanOperatorN.Set
        SigningN.Unsigned (List.range 70) 70 33 [2 ^ 64 - 1, 12345] = some mq ∧
      (∀ i, i < 70 → bitAt mp.matchVector i = bitAt mq.matchVector i) ∧
      ∀ w, w < 70 / 64 →
        ∃ x, mp.matchVector[w]? = some x ∧ mq.matchVector[w]? = some x :=
  C4_set_overwrites WhereSingle WhereSingle_contract CompareOperatorN.GreaterThanOrEqual
    SigningN.Unsigned (List.range 70) 70 33 [0, 0] [2 ^ 64 - 1, 12345] (by decide) (by decide)

theorem compareBytes_le_gt (sign : SigningN) (x v : Nat) :
    compareBytes CompareOperatorN.LessThanOrEqual sign x v
      = !compareBytes CompareOperatorN.GreaterThan sign x v := by
  by_cases h : interpret sign v < interpret sign x
  · simp [compareBytes, h]
  · simp [compareBytes, h]
    omega

theorem compareBytes_ne_eq (sign : SigningN) (x v : Nat) :
    compareBytes CompareOperatorN.NotEquals sign x v
      = !compareBytes CompareOperatorN.Equals sign x v := by
  simp [compareBytes]

/-- Two scalar-reference words whose predicates are negations of each other are exact 64-bit
bitwise complements. -/
theorem predicateWord_complement (c d : CompareOperatorN) (sign : SigningN)
    (hcd : ∀ x v, compareBytes d sign x v = !compareBytes c sign x v)
    (set : List Nat) (value i : Nat) :
    predicateWord d sign set value i = predicateWord c sign set value i ^^^ (2 ^ 64 - 1) := by
  apply Nat.eq_of_testBit_eq
  intro j
  rw [not64_testBit]
  by_cases hj : j < 64
  · rw [predicateWord_testBit _ _ _ _ _ _ hj, predicateWord_testBit _ _ _ _ _ _ hj, hcd]
    simp [hj]
  · have hle : (2 : Nat) ^ 64 ≤ 2 ^ j := Nat.pow_le_pow_right (by decide) (by omega)
    rw [Nat.testBit_lt_two_pow (Nat.lt_of_lt_of_le (predicateWord_lt d sign set value i) hle),
      Nat.testBit_lt_two_pow (Nat.lt_of_lt_of_le (predicateWord_lt c sign set value i) hle)]
    simp [hj]

/-- C5. Operator complementarity, with combine `Set`: on every bit below `length` the
`GreaterThan` bit is the negation of the `LessThanOrEqual` bit and the `Equals` bit is the
negation of the `NotEquals` bit; on every full-block word the two output words are exact 64-bit
bitwise complements. -/
theorem C5_operator_complementarity (ws : RemainderHandler) (hws : RemainderContract ws)
    (signing : SigningN) (set : List Nat) (length value : Nat) (prior : List Nat)
    (h : ValidCall set length value prior) :
    ∃ mGT mLE mEQ mNE,
      Where ws CompareOperatorN.GreaterThan BooleanOperatorN.Set signing set length value prior
        = some mGT ∧
      Where ws CompareOperatorN.LessThanOrEqual BooleanOperatorN.Set signing set length value prior
        = some mLE ∧
      Where ws CompareOperatorN.Equals BooleanOperatorN.Set signing set length value prior
        = some mEQ ∧
      Where ws CompareOperatorN.NotEquals BooleanOperatorN.Set signing set length value prior
        = some mNE ∧
      (∀ i, i < length →
        bitAt mGT.matchVector i = !bitAt mLE.matchVector i ∧
        bitAt mEQ.matchVector i = !bitAt mNE.matchVector i) ∧
      ∀ w, w < length / 64 →
        (∃ x, x < 2 ^ 64 ∧ mGT.matchVector[w]? = some x ∧
          mLE.matchVector[w]? = some (x ^^^ (2 ^ 64 - 1))) ∧
        (∃ x, x < 2 ^ 64 ∧ mEQ.matchVector[w]? = some x ∧
          mNE.matchVector[w]? = some (x ^^^ (2 ^ 64 - 1))) := by
  obtain ⟨mGT, hGT, _, _, wGT, _, _, bGT⟩ := Where_spec ws CompareOperatorN.GreaterThan
    BooleanOperatorN.Set signing set length value prior h (fun _ => hws)
  obtain ⟨mLE, hLE, _, _, wLE, _, _, bLE⟩ := Where_spec ws CompareOperatorN.LessThanOrEqual
    BooleanOperatorN.Set signing set length value prior h (fun _ => hws)
  obtain ⟨mEQ, hEQ, _, _, wEQ, _, _, bEQ⟩ := Where_spec ws CompareOperatorN.Equals
    BooleanOperatorN.Set signing set length value prior h (fun _ => hws)
  obtain ⟨mNE, hNE, _, _, wNE, _, _, bNE⟩ := Where_spec ws CompareOperatorN.NotEquals
    BooleanOperatorN.Set signing set length value prior h (fun _ => hws)
  refine ⟨mGT, mLE, mEQ, mNE, hGT, hLE, hEQ, hNE, ?_, ?_⟩
  · intro i hi
    rw [bGT i hi, bLE i hi, bEQ i hi, bNE i hi, compareBytes_le_gt, compareBytes_ne_eq]
    simp [combineBit]
  · intro w hw
    refine ⟨⟨_, predicateWord_lt CompareOperatorN.GreaterThan signing set value (64 * w),
        wGT w hw, ?_⟩,
      ⟨_, predicateWord_lt CompareOperatorN.Equals signing set value (64 * w), wEQ w hw, ?_⟩⟩
    · rw [wLE w hw]
      simp only [combineWord]
      rw [predicateWord_complement CompareOperatorN.GreaterThan CompareOperatorN.LessThanOrEqual
        signing (compareBytes_le_gt signing)]
    · rw [wNE w hw]
      simp only [combineWord]
      rw [predicateWord_complement CompareOperatorN.Equals CompareOperatorN.NotEquals
        signing (compareBytes_ne_eq signing)]

/-- C5 at the scenario of the spec: elements `0, 1, ..., 63`, value 30, `Unsigned`. -/
theorem C5_operator_complementarity_witness :
    ∃ mGT mLE mEQ mNE,
      Where WhereSingle CompareOperatorN.GreaterThan BooleanOperatorN.Set SigningN.Unsigned
        (List.range 64) 64 30 [0] = some mGT ∧
      Where WhereSingle CompareOperatorN.LessThanOrEqual BooleanOperatorN.Set SigningN.Unsigned
        (List.range 64) 64 30 [0] = some mLE ∧
      Where WhereSingle CompareOperatorN.Equals BooleanOperatorN.Set SigningN.Unsigned
        (List.range 64) 64 30 [0] = some mEQ ∧
      Where WhereSingle CompareOperatorN.NotEquals BooleanOperatorN.Set SigningN.Unsigned
        (List.range 64) 64 30 [0] = some mNE ∧
      (∀ i, i < 64 →
        bitAt mGT.matchVector i = !bitAt mLE.matchVector i ∧
        bitAt mEQ.matchVector i = !bitAt mNE.matchVector i) ∧
      ∀ w, w < 64 / 64 →
        (∃ x, x < 2 ^ 64 ∧ mGT.matchVector[w]? = some x ∧
          mLE.matchVector[w]? = some (x ^^^ (2 ^ 64 - 1))) ∧
        (∃ x, x < 2 ^ 64 ∧ mEQ.matchVector[w]? = some x ∧
          mNE.matchVector[w]? = some (x ^^^ (2 ^ 64 - 1))) :=
  C5_operator_complementarity WhereSingle WhereSingle_contract SigningN.Unsigned (List.range 64)
    64 30 [0] (by decide)

/-- C6. Block-boundary compositionality: when `length` is not a multiple of 64, the bits
`[0, length % 64)` of the remainder word after the run on the whole array equal the bits
`[0, length % 64)` of word 0 after the run on the trailing sub-array alone, started from the same
prior word. -/
theorem C6_remainder_compositional (ws : RemainderHandler) (hws : RemainderContract ws)
    (cOp : CompareOperatorN) (bOp : BooleanOperatorN) (signing : SigningN) (set : List Nat)
    (length value : Nat) (p q : List Nat) (h : ValidCall set length value p)
    (_hr : length % 64 ≠ 0) (hq : 1 ≤ q.length) (hword : q.getD 0 0 = p.getD (length / 64) 0) :
    ∃ mWhole mSub,
      Where ws cOp bOp signing set length value p = some mWhole ∧
      Where ws cOp bOp signing ((set.drop (64 * (length / 64))).take (length % 64))
        (length % 64) value q = some mSub ∧
      ∀ j, j < length % 64 →
        (mWhole.matchVector.getD (length / 64) 0).testBit j
          = (mSub.matchVector.getD 0 0).testBit j := by
  obtain ⟨hL, hset, hbytes, hv, hmv⟩ := h
  have hsubValid : ValidCall ((set.drop (64 * (length / 64))).take (length % 64))
      (length % 64) value q := by
    refine ⟨by omega, ?_, ?_, hv, by omega⟩
    · rw [List.length_take, List.length_drop]; omega
    · intro x hx
      exact hbytes x (List.mem_of_mem_drop (List.mem_of_mem_take hx))
  obtain ⟨mW, hW, _, _, _, _, _, bW⟩ := Where_spec ws cOp bOp signing set length value p
    ⟨hL, hset, hbytes, hv, hmv⟩ (fun _ => hws)
  obtain ⟨mS, hS, _, _, _, _, _, bS⟩ := Where_spec ws cOp bOp signing _ (length % 64) value q
    hsubValid (fun _ => hws)
  refine ⟨mW, mS, hW, hS, ?_⟩
  intro j hj
  have h1 := bW (64 * (length / 64) + j) (by omega)
  have h2 := bS j hj
  unfold bitAt at h1 h2
  have e1 : (64 * (length / 64) + j) / 64 = length / 64 := by omega
  have e2 : (64 * (length / 64) + j) % 64 = j := by omega
  have e3 : j / 64 = 0 := by omega
  have e4 : j % 64 = j := by omega
  have e5 : length % 64 / 64 = 0 := by omega
  rw [e1, e2, if_neg (by omega)] at h1
  rw [e3, e4, e5, if_neg (by omega), hword] at h2
  rw [h1, h2]
  congr 2
  simp only [List.getD_eq_getElem?_getD, List.getElem?_take, List.getElem?_drop, if_pos hj]

/-- C6 at `length = 65`: the single remainder element gets the result it gets with
`length = 1` alone. -/
theorem C6_remainder_compositional_witness :
    ∃ mWhole mSub,
      Where WhereSingle CompareOperatorN.LessThan BooleanOperatorN.Or SigningN.Signed
        (List.range 65) 65 200 [3, 4] = some mWhole ∧
      Where WhereSingle CompareOperatorN.LessThan BooleanOperatorN.Or SigningN.Signed
        (((List.range 65).drop (64 * (65 / 64))).take (65 % 64)) (65 % 64) 200 [4] = some mSub ∧
      ∀ j, j < 65 % 64 →
        (mWhole.matchVector.getD (65 / 64) 0).testBit j
          = (mSub.matchVector.getD 0 0).testBit j :=
  C6_remainder_compositional WhereSingle WhereSingle_contract CompareOperatorN.LessThan
    BooleanOperatorN.Or SigningN.Signed (List.range 65) 65 200 [3, 4] [4] (by decide) (by decide)
    (by decide) (by decide)

theorem mem_blockTrace (e : Access) (a n : Nat) :
    e ∈ blockTrace a n ↔ ∃ w, a ≤ w ∧ w < a + n ∧
      (e = Access.load (64 * w) ∨ e = Access.load (64 * w + 32) ∨ e = Access.store w) := by
  unfold blockTrace
  rw [List.mem_flatMap]
  constructor
  · rintro ⟨w, hw, he⟩
    rw [List.mem_range'_1] at hw
    refine ⟨w, hw.1, hw.2, ?_⟩
    simpa using he
  · rintro ⟨w, h1, h2, he⟩
    refine ⟨w, List.mem_range'_1.mpr ⟨h1, h2⟩, ?_⟩
    simpa using he

/-- C7. Frame: a run leaves every word from index `ceil(length / 64)` on, the number of words
and the element array as they were; the stores of the block loop go to exactly the words
`0, ..., length / 64 - 1`; the remainder handler is handed something exactly when
`length % 64` is not zero, and then the sub-array at `64 * (length / 64)` of `length % 64`
elements with the single word `length / 64`; for `length = 0` nothing is accessed and the match
vector is unchanged. -/
theorem C7_frame (ws : RemainderHandler) (hws : RemainderContract ws) (cOp : CompareOperatorN)
    (bOp : BooleanOperatorN) (signing : SigningN) (set : List Nat) (length value : Nat)
    (matchVector : List Nat) (h : ValidCall set length value matchVector) :
    ∃ m', Where ws cOp bOp signing set length value matchVector = some m' ∧
      m'.set = set ∧ m'.matchVector.length = matchVector.length ∧
      (∀ w, (length + 63) / 64 ≤ w → m'.matchVector[w]? = matchVector[w]?) ∧
      (∀ w, Access.store w ∈ m'.trace ↔ w < length / 64) ∧
      (∀ o n w, Access.remainder o n w ∈ m'.trace ↔
        (length % 64 ≠ 0 ∧ o = 64 * (length / 64) ∧ n = length % 64 ∧ w = length / 64)) ∧
      (length = 0 → m'.trace = [] ∧ m'.matchVector = matchVector) := by
  obtain ⟨m', hrun, hset, hlen, _, hfr, htr, _⟩ :=
    Where_spec ws cOp bOp signing set length value matchVector h (fun _ => hws)
  refine ⟨m', hrun, hset, hlen, hfr, ?_, ?_, ?_⟩
  · intro w
    rw [htr, List.mem_append, mem_blockTrace]
    constructor
    · rintro (⟨w', _, h2, he⟩ | he)
      · rcases he with he | he | he
        · cases he
        · cases he
        · cases he; omega
      · split at he <;> simp at he
    · intro hw
      exact Or.inl ⟨w, Nat.zero_le _, by omega, Or.inr (Or.inr rfl)⟩
  · intro o n w
    rw [htr, List.mem_append, mem_blockTrace]
    constructor
    · rintro (⟨w', _, _, he⟩ | he)
      · rcases he with he | he | he <;> cases he
      · split at he
        · rename_i hr
          simp only [List.mem_singleton, Access.remainder.injEq] at he
          exact ⟨hr, he.1, he.2.1, he.2.2⟩
        · simp at he
    · rintro ⟨hr, rfl, rfl, rfl⟩
      exact Or.inr (by rw [if_pos hr]; exact List.mem_singleton.mpr rfl)
  · intro h0
    subst h0
    refine ⟨by rw [htr]; rfl, ?_⟩
    apply List.ext_getElem?
    intro w
    exact hfr w (Nat.zero_le _)

/-- C7 at a concrete input: 70 elements and a match vector of three words. -/
theorem C7_frame_witness :
    ∃ m', Where WhereSingle CompareOperatorN.NotEquals BooleanOperatorN.And SigningN.Unsigned
        (List.range 70) 70 7 [1, 2, 3] = some m' ∧
      m'.set = List.range 70 ∧ m'.matchVector.length = [1, 2, 3].length ∧
      (∀ w, (70 + 63) / 64 ≤ w → m'.matchVector[w]? = [1, 2, 3][w]?) ∧
      (∀ w, Access.store w ∈ m'.trace ↔ w < 70 / 64) ∧
      (∀ o n w, Access.remainder o n w ∈ m'.trace ↔
        (70 % 64 ≠ 0 ∧ o = 64 * (70 / 64) ∧ n = 70 % 64 ∧ w = 70 / 64)) ∧
      (70 = 0 → m'.trace = [] ∧ m'.matchVector = [1, 2, 3]) :=
  C7_frame WhereSingle WhereSingle_contract CompareOperatorN.NotEquals BooleanOperatorN.And
    SigningN.Unsigned (List.range 70) 70 7 [1, 2, 3] (by decide)

/-- C8. No read past the end: on an element array of exactly `length` bytes the run succeeds
with bounds-checked loads, every index `o + j`, `j < 32`, of every 32-byte load made by the block
loop is below `length`, and the sub-range `[o, o + n)` handed to the remainder handler lies
within `[0, length)`. -/
theorem C8_no_read_past_end (ws : RemainderHandler) (hws : RemainderContract ws)
    (cOp : CompareOperatorN) (bOp : BooleanOperatorN) (signing : SigningN) (set : List Nat)
    (length value : Nat) (matchVector : List Nat) (h : ValidCall set length value matchVector)
    (hexact : set.length = length) :
    ∃ m', Where ws cOp bOp signing set length value matchVector = some m' ∧
      (∀ o, Access.load o ∈ m'.trace → ∀ j, j < 32 → o + j < set.length) ∧
      (∀ o n w, Access.remainder o n w ∈ m'.trace → o + n ≤ set.length) := by
  obtain ⟨m', hrun, _, _, _, _, htr, _⟩ :=
    Where_spec ws cOp bOp signing set length value matchVector h (fun _ => hws)
  refine ⟨m', hrun, ?_, ?_⟩
  · intro o ho j hj
    rw [htr, List.mem_append, mem_blockTrace] at ho
    rcases ho with ⟨w, _, h2, he⟩ | he
    · rcases he with he | he | he
      · cases he; omega
      · cases he; omega
      · cases he
    · split at he <;> simp at he
  · intro o n w ho
    rw [htr, List.mem_append, mem_blockTrace] at ho
    rcases ho with ⟨w', _, _, he⟩ | he
    · rcases he with he | he | he <;> cases he
    · split at he
      · simp only [List.mem_singleton, Access.remainder.injEq] at he
        obtain ⟨rfl, rfl, _⟩ := he
        omega
      · simp at he

/-- C8 at a concrete input: an element array of exactly 70 bytes. -/
theorem C8_no_read_past_end_witness :
    ∃ m', Where WhereSingle CompareOperatorN.Equals BooleanOperatorN.Set SigningN.Signed
        (List.range 70) 70 7 [0, 0] = some m' ∧
      (∀ o, Access.load o ∈ m'.trace → ∀ j, j < 32 → o + j < (List.range 70).length) ∧
      (∀ o n w, Access.remainder o n w ∈ m'.trace → o + n ≤ (List.range 70).length) :=
  C8_no_read_past_end WhereSingle WhereSingle_contract CompareOperatorN.Equals
    BooleanOperatorN.Set SigningN.Signed (List.range 70) 70 7 [0, 0] (by decide) (by decide)

set_option maxRecDepth 8192 in
theorem predicateWord_range64_gt30 :
    predicateWord CompareOperatorN.GreaterThan SigningN.Unsigned (List.range 64) 30 (64 * 0)
      = 0xFFFFFFFF80000000 := by
  decide

set_option maxRecDepth 8192 in
theorem predicateWord_fives_gt10 :
    predicateWord CompareOperatorN.GreaterThan SigningN.Unsigned
      (List.replicate 64 5 ++ List.replicate 6 50) 10 (64 * 0) = 0 := by
  decide

/-- C9. Scenario: for the elements `0, 1, ..., 63`, value 30, `GreaterThan`, `Set`, `Unsigned`
and any prior content, the run leaves word 0 equal to `0xFFFFFFFF80000000` (bits 31..63 set,
bits 0..30 clear) and the words after it untouched. -/
theorem C9_scenario_greater_than_30 (ws : RemainderHandler) (p : Nat) (rest : List Nat) :
    ∃ m', Where ws CompareOperatorN.GreaterThan BooleanOperatorN.Set SigningN.Unsigned
        (List.range 64) 64 30 (p :: rest) = some m' ∧
      m'.matchVector = 0xFFFFFFFF80000000 :: rest ∧
      ∀ j, j < 64 → Nat.testBit 0xFFFFFFFF80000000 j = decide (31 ≤ j) := by
  have hvalid : ValidCall (List.range 64) 64 30 (p :: rest) :=
    ⟨by decide, by decide, fun x hx => by rw [List.mem_range] at hx; omega, by decide, by simp⟩
  obtain ⟨m', hrun, _, hlen, hwr, hfr, _, _⟩ := Where_spec ws CompareOperatorN.GreaterThan
    BooleanOperatorN.Set SigningN.Unsigned (List.range 64) 64 30 (p :: rest) hvalid
    (fun hne => absurd rfl hne)
  refine ⟨m', hrun, ?_, by decide⟩
  apply List.ext_getElem?
  intro w
  cases w with
  | zero =>
    rw [hwr 0 (by decide), predicateWord_range64_gt30]
    simp [combineWord]
  | succ w =>
    rw [hfr (w + 1) (by omega)]
    simp

/-- C10. Scenario: 70 elements, the first 64 all 5 and the last 6 all 50, value 10,
`GreaterThan`, `Unsigned`, `Set`, and a starting match vector whose word 1 is 0: the run leaves
word 0 equal to 0 and the low 6 bits of word 1 equal to `0b111111`. -/
theorem C10_scenario_length_70 (ws : RemainderHandler) (hws : RemainderContract ws) (p : Nat)
    (rest : List Nat) :
    ∃ m' word1, Where ws CompareOperatorN.GreaterThan BooleanOperatorN.Set SigningN.Unsigned
        (List.replicate 64 5 ++ List.replicate 6 50) 70 10 (p :: 0 :: rest) = some m' ∧
      m'.matchVector[0]? = some 0 ∧ m'.matchVector[1]? = some word1 ∧
      word1 % 2 ^ 6 = 0b111111 := by
  have hvalid : ValidCall (List.replicate 64 5 ++ List.replicate 6 50) 70 10 (p :: 0 :: rest) :=
    ⟨by decide, by decide, fun x hx => by simp at hx; omega, by decide, by simp⟩
  obtain ⟨m', hrun, _, hlen, hwr, _, _, hbit⟩ := Where_spec ws CompareOperatorN.GreaterThan
    BooleanOperatorN.Set SigningN.Unsigned (List.replicate 64 5 ++ List.replicate 6 50) 70 10
    (p :: 0 :: rest) hvalid (fun _ => hws)
  have h1 : 1 < m'.matchVector.length := by rw [hlen]; simp
  refine ⟨m', m'.matchVector[1], hrun, ?_, List.getElem?_eq_getElem h1, ?_⟩
  · rw [hwr 0 (by decide), predicateWord_fives_gt10]
    rfl
  · apply Nat.eq_of_testBit_eq
    intro j
    rw [Nat.testBit_mod_two_pow]
    by_cases hj : j < 6
    · have hb := hbit (64 + j) (by omega)
      unfold bitAt at hb
      rw [show (64 + j) / 64 = 1 by omega, show (64 + j) % 64 = j by omega,
        List.getD_eq_getElem?_getD, List.getElem?_eq_getElem h1, Option.getD_some] at hb
      rw [hb]
      simp only [combineBit]
      have hj' : j = 0 ∨ j = 1 ∨ j = 2 ∨ j = 3 ∨ j = 4 ∨ j = 5 := by omega
      rcases hj' with rfl | rfl | rfl | rfl | rfl | rfl <;> decide
    · have : Nat.testBit 0b111111 j = false := by
        apply Nat.testBit_lt_two_pow
        calc (0b111111 : Nat) < 2 ^ 6 := by decide
          _ ≤ 2 ^ j := Nat.pow_le_pow_right (by decide) (by omega)
      simp [hj, this]

/-- C10 with the model of `WhereSingle` as the handler and a prior word 0 of 7. -/
theorem C10_scenario_length_70_witness :
    ∃ m' word1, Where WhereSingle CompareOperatorN.GreaterThan BooleanOperatorN.Set
        SigningN.Unsigned (List.replicate 64 5 ++ List.replicate 6 50) 70 10 (7 :: 0 :: [])
          = some m' ∧
      m'.matchVector[0]? = some 0 ∧ m'.matchVector[1]? = some word1 ∧
      word1 % 2 ^ 6 = 0b111111 :=
  C10_scenario_length_70 WhereSingle WhereSingle_contract 7 []

/-! ## Properties of the dispatcher, the lanes and the loop -/

/-- The first half of a run of `WhereN`: the block loop returns with `i` at the block length,
and the run is the remainder call on the memory the loop leaves. -/
theorem WhereN_loop (cOp : CompareOperatorN) (bOp : BooleanOperatorN) (sign : SigningN)
    (set : List Nat) (length value : Nat) (matchVector : List Nat)
    (h : ValidCall set length value matchVector) :
    ∃ m1, blockLoop cOp bOp sign (_mm256_set1_epi8 (-128))
        (if sign = SigningN.Unsigned then
          _mm256_sub_epi8 (_mm256_set1_epi8 (value : Int)) (_mm256_set1_epi8 (-128))
        else _mm256_set1_epi8 (value : Int)) (length &&& 0xFFFFFFC0) length 0
        { set := set, matchVector := matchVector, trace := [] }
          = some (64 * (length / 64), m1) ∧
      (∀ ws : RemainderHandler, WhereN ws cOp bOp sign set length value matchVector
        = remainderCall ws cOp bOp length value (64 * (length / 64)) m1) ∧
      m1.set = set ∧ m1.matchVector.length = matchVector.length ∧
      (∀ w, w < length / 64 → m1.matchVector[w]? =
        some (combineWord bOp (matchVector.getD w 0)
          (predicateWord cOp sign set value (64 * w)))) ∧
      (∀ w, length / 64 ≤ w → m1.matchVector[w]? = matchVector[w]?) ∧
      m1.trace = blockTrace 0 (length / 64) := by
  obtain ⟨hL, hset, hbytes, hv, hmv⟩ := h
  obtain ⟨m1, hrun, hs, hlen, hwr, hfr, htr⟩ := blockLoop_spec cOp bOp sign value hv (length / 64)
    length 0 { set := set, matchVector := matchVector, trace := [] }
    (Nat.div_le_self _ _) (by simp only []; omega) (by omega) (by simp only []; omega) hbytes
  simp only [Nat.zero_add, Nat.mul_zero] at hrun hwr hfr hs hlen
  simp only [List.nil_append] at htr
  have hmask := and_blockMask length (by omega)
  refine ⟨m1, by rw [hmask]; exact hrun, ?_, hs, hlen, ?_, ?_, htr⟩
  · intro ws
    unfold WhereN
    simp only [hmask, hrun]
  · intro w hw; exact hwr w (Nat.zero_le _) hw
  · intro w hw; exact hfr w (Or.inr hw)

theorem memory_eq (m1 m2 : Memory) (hs : m1.set = m2.set)
    (hm : m1.matchVector = m2.matchVector) (ht : m1.trace = m2.trace) : m1 = m2 := by
  cases m1
  cases m2
  simp only [Memory.mk.injEq]
  exact ⟨hs, hm, ht⟩

theorem compareBytes_eq_sign (x v : Nat) (hx : x < 256) (hv : v < 256) :
    compareBytes CompareOperatorN.Equals SigningN.Signed x v
      = compareBytes CompareOperatorN.Equals SigningN.Unsigned x v := by
  simp only [compareBytes, interpret, toInt8]
  congr 1
  apply propext
  split_ifs <;> omega

theorem compareBytes_ne_sign (x v : Nat) (hx : x < 256) (hv : v < 256) :
    compareBytes CompareOperatorN.NotEquals SigningN.Signed x v
      = compareBytes CompareOperatorN.NotEquals SigningN.Unsigned x v := by
  rw [compareBytes_ne_eq, compareBytes_ne_eq, compareBytes_eq_sign x v hx hv]

theorem predicateWord_congr (c1 c2 : CompareOperatorN) (s1 s2 : SigningN) (set : List Nat)
    (value i : Nat) (hbytes : ∀ x ∈ set, x < 256)
    (hc : ∀ x, x < 256 → compareBytes c1 s1 x value = compareBytes c2 s2 x value) :
    predicateWord c1 s1 set value i = predicateWord c2 s2 set value i := by
  unfold predicateWord
  congr 1
  apply List.map_congr_left
  intro j _
  exact hc _ (getD_lt_of_bytes set hbytes _)

/-- Two runs of `WhereN` whose scalar references agree on every block end in the same memory,
whatever the remainder handler is. -/
theorem WhereN_congr (ws : RemainderHandler) (c1 c2 : CompareOperatorN)
    (bOp : BooleanOperatorN) (s1 s2 : SigningN) (set : List Nat) (length value : Nat)
    (matchVector : List Nat) (h : ValidCall set length value matchVector)
    (hc : ∀ x, x < 256 → compareBytes c1 s1 x value = compareBytes c2 s2 x value)
    (hcall : ∀ m, remainderCall ws c1 bOp length value (64 * (length / 64)) m
      = remainderCall ws c2 bOp length value (64 * (length / 64)) m) :
    WhereN ws c1 bOp s1 set length value matchVector
      = WhereN ws c2 bOp s2 set length value matchVector := by
  obtain ⟨m1, _, hW1, hs1, hl1, hw1, hf1, ht1⟩ :=
    WhereN_loop c1 bOp s1 set length value matchVector h
  obtain ⟨m2, _, hW2, hs2, hl2, hw2, hf2, ht2⟩ :=
    WhereN_loop c2 bOp s2 set length value matchVector h
  have hm : m1 = m2 := by
    apply memory_eq
    · rw [hs1, hs2]
    · apply List.ext_getElem?
      intro w
      by_cases hw : w < length / 64
      · rw [hw1 w hw, hw2 w hw, predicateWord_congr c1 c2 s1 s2 set value _ h.2.2.1 hc]
      · rw [hf1 w (by omega), hf2 w (by omega)]
    · rw [ht1, ht2]
  rw [hW1 ws, hW2 ws, hm, hcall]

/-- C11. Signedness is irrelevant to equality: for every length, combine mode, element array,
value and prior match vector, and whatever the remainder handler is, the run of `Where` with
`Equals` under `Signed` ends in the same memory, so in the same match vector, as under
`Unsigned`, and likewise for `NotEquals`; with a handler meeting its contract the runs
return. -/
theorem C11_equality_ignores_signedness (ws : RemainderHandler) (bOp : BooleanOperatorN)
    (set : List Nat) (length value : Nat) (matchVector : List Nat)
    (h : ValidCall set length value matchVector) :
    Where ws CompareOperatorN.Equals bOp SigningN.Signed set length value matchVector
        = Where ws CompareOperatorN.Equals bOp SigningN.Unsigned set length value matchVector ∧
      Where ws CompareOperatorN.NotEquals bOp SigningN.Signed set length value matchVector
        = Where ws CompareOperatorN.NotEquals bOp SigningN.Unsigned set length value
            matchVector ∧
      (RemainderContract ws → ∃ mEq mNe,
        Where ws CompareOperatorN.Equals bOp SigningN.Signed set length value matchVector
          = some mEq ∧
        Where ws CompareOperatorN.Equals bOp SigningN.Unsigned set length value matchVector
          = some mEq ∧
        Where ws CompareOperatorN.NotEquals bOp SigningN.Signed set length value matchVector
          = some mNe ∧
        Where ws CompareOperatorN.NotEquals bOp SigningN.Unsigned set length value matchVector
          = some mNe) := by
  have hE : Where ws CompareOperatorN.Equals bOp SigningN.Signed set length value matchVector
      = Where ws CompareOperatorN.Equals bOp SigningN.Unsigned set length value matchVector := by
    rw [Where_eq_WhereN, Where_eq_WhereN]
    exact WhereN_congr ws _ _ bOp _ _ set length value matchVector h
      (fun x hx => compareBytes_eq_sign x value hx h.2.2.2.1) (fun _ => rfl)
  have hN : Where ws CompareOperatorN.NotEquals bOp SigningN.Signed set length value matchVector
      = Where ws CompareOperatorN.NotEquals bOp SigningN.Unsigned set length value
          matchVector := by
    rw [Where_eq_WhereN, Where_eq_WhereN]
    exact WhereN_congr ws _ _ bOp _ _ set length value matchVector h
      (fun x hx => compareBytes_ne_sign x value hx h.2.2.2.1) (fun _ => rfl)
  refine ⟨hE, hN, ?_⟩
  intro hws
  obtain ⟨mE, hrE, _⟩ := Where_spec ws CompareOperatorN.Equals bOp SigningN.Signed set length
    value matchVector h (fun _ => hws)
  obtain ⟨mN, hrN, _⟩ := Where_spec ws CompareOperatorN.NotEquals bOp SigningN.Signed set length
    value matchVector h (fun _ => hws)
  exact ⟨mE, mN, hrE, by rw [← hE]; exact hrE, hrN, by rw [← hN]; exact hrN⟩

/-- C11 at a concrete input: 70 signed-negative and positive bytes, combine `Or`, with the model
of `WhereSingle`, whose contract makes the runs return. -/
theorem C11_equality_ignores_signedness_witness :
    (Where WhereSingle CompareOperatorN.Equals BooleanOperatorN.Or SigningN.Signed
        (List.replicate 35 0xFF ++ List.replicate 35 0x01) 70 0xFF [5, 9]
        = Where WhereSingle CompareOperatorN.Equals BooleanOperatorN.Or SigningN.Unsigned
            (List.replicate 35 0xFF ++ List.replicate 35 0x01) 70 0xFF [5, 9] ∧
      Where WhereSingle CompareOperatorN.NotEquals BooleanOperatorN.Or SigningN.Signed
        (List.replicate 35 0xFF ++ List.replicate 35 0x01) 70 0xFF [5, 9]
        = Where WhereSingle CompareOperatorN.NotEquals BooleanOperatorN.Or SigningN.Unsigned
            (List.replicate 35 0xFF ++ List.replicate 35 0x01) 70 0xFF [5, 9]) ∧
      ∃ mEq mNe,
        Where WhereSingle CompareOperatorN.Equals BooleanOperatorN.Or SigningN.Signed
          (List.replicate 35 0xFF ++ List.replicate 35 0x01) 70 0xFF [5, 9] = some mEq ∧
        Where WhereSingle CompareOperatorN.Equals BooleanOperatorN.Or SigningN.Unsigned
          (List.replicate 35 0xFF ++ List.replicate 35 0x01) 70 0xFF [5, 9] = some mEq ∧
        Where WhereSingle CompareOperatorN.NotEquals BooleanOperatorN.Or SigningN.Signed
          (List.replicate 35 0xFF ++ List.replicate 35 0x01) 70 0xFF [5, 9] = some mNe ∧
        Where WhereSingle CompareOperatorN.NotEquals BooleanOperatorN.Or SigningN.Unsigned
          (List.replicate 35 0xFF ++ List.replicate 35 0x01) 70 0xFF [5, 9] = some mNe :=
  have h := C11_equality_ignores_signedness WhereSingle BooleanOperatorN.Or
    (List.replicate 35 0xFF ++ List.replicate 35 0x01) 70 0xFF [5, 9] (by decide)
  ⟨⟨h.1, h.2.1⟩, h.2.2 WhereSingle_contract⟩

/-- C12. `And` narrows, `Or` widens: after a run with combine `And` every bit below `length`
that is 1 in the output was 1 in the prior vector (output AND prior = output), and after a run
with combine `Or` every bit below `length` that was 1 in the prior vector is 1 in the output
(output OR prior = output); for the words of full blocks the two equations hold on the whole
64-bit word. -/
theorem C12_and_narrows_or_widens (ws : RemainderHandler) (hws : RemainderContract ws)
    (cOp : CompareOperatorN) (signing : SigningN) (set : List Nat) (length value : Nat)
    (prior : List Nat) (h : ValidCall set length value prior) :
    ∃ mAnd mOr,
      Where ws cOp BooleanOperatorN.And signing set length value prior = some mAnd ∧
      Where ws cOp BooleanOperatorN.Or signing set length value prior = some mOr ∧
      (∀ i, i < length →
        (bitAt mAnd.matchVector i = true → bitAt prior i = true) ∧
        (bitAt mAnd.matchVector i && bitAt prior i) = bitAt mAnd.matchVector i ∧
        (bitAt prior i = true → bitAt mOr.matchVector i = true) ∧
        (bitAt mOr.matchVector i || bitAt prior i) = bitAt mOr.matchVector i) ∧
      ∀ w, w < length / 64 →
        ∃ x y p, mAnd.matchVector[w]? = some x ∧ mOr.matchVector[w]? = some y ∧
          prior[w]? = some p ∧ x &&& p = x ∧ y ||| p = y := by
  obtain ⟨mA, hA, _, _, wA, _, _, bA⟩ := Where_spec ws cOp BooleanOperatorN.And signing set length
    value prior h (fun _ => hws)
  obtain ⟨mO, hO, _, _, wO, _, _, bO⟩ := Where_spec ws cOp BooleanOperatorN.Or signing set length
    value prior h (fun _ => hws)
  refine ⟨mA, mO, hA, hO, ?_, ?_⟩
  · intro i hi
    rw [bA i hi, bO i hi]
    simp only [combineBit]
    cases bitAt prior i <;>
      cases compareBytes cOp (if i < 64 * (length / 64) then signing else SigningN.Unsigned)
        (set.getD i 0) value <;> simp
  · intro w hw
    have hwl : w < prior.length := by have := h.2.2.2.2; omega
    refine ⟨_, _, prior[w], wA w hw, wO w hw, List.getElem?_eq_getElem hwl, ?_, ?_⟩
    · rw [List.getD_eq_getElem?_getD, List.getElem?_eq_getElem hwl, Option.getD_some]
      apply Nat.eq_of_testBit_eq
      intro j
      simp only [combineWord, Nat.testBit_and]
      cases prior[w].testBit j <;> simp
    · rw [List.getD_eq_getElem?_getD, List.getElem?_eq_getElem hwl, Option.getD_some]
      apply Nat.eq_of_testBit_eq
      intro j
      simp only [combineWord, Nat.testBit_or]
      cases prior[w].testBit j <;> simp

/-- C12 at a concrete input: 70 elements and a prior vector with mixed bits. -/
theorem C12_and_narrows_or_widens_witness :
    ∃ mAnd mOr,
      Where WhereSingle CompareOperatorN.GreaterThan BooleanOperatorN.And SigningN.Unsigned
        (List.range 70) 70 30 [0xF0F0F0F0F0F0F0F0, 0x2A] = some mAnd ∧
      Where WhereSingle CompareOperatorN.GreaterThan BooleanOperatorN.Or SigningN.Unsigned
        (List.range 70) 70 30 [0xF0F0F0F0F0F0F0F0, 0x2A] = some mOr ∧
      (∀ i, i < 70 →
        (bitAt mAnd.matchVector i = true → bitAt [0xF0F0F0F0F0F0F0F0, 0x2A] i = true) ∧
        (bitAt mAnd.matchVector i && bitAt [0xF0F0F0F0F0F0F0F0, 0x2A] i)
          = bitAt mAnd.matchVector i ∧
        (bitAt [0xF0F0F0F0F0F0F0F0, 0x2A] i = true → bitAt mOr.matchVector i = true) ∧
        (bitAt mOr.matchVector i || bitAt [0xF0F0F0F0F0F0F0F0, 0x2A] i)
          = bitAt mOr.matchVector i) ∧
      ∀ w, w < 70 / 64 →
        ∃ x y p, mAnd.matchVector[w]? = some x ∧ mOr.matchVector[w]? = some y ∧
          [0xF0F0F0F0F0F0F0F0, 0x2A][w]? = some p ∧ x &&& p = x ∧ y ||| p = y :=
  C12_and_narrows_or_widens WhereSingle WhereSingle_contract CompareOperatorN.GreaterThan
    SigningN.Unsigned (List.range 70) 70 30 [0xF0F0F0F0F0F0F0F0, 0x2A] (by decide)

/-- C13. Dispatch faithfulness: for each of the 36 triples of enumerated values, the entry point
`Where`, and the two inner selections `WhereS` and `WhereB`, return exactly what the instance
`WhereN<cOp, bOp, signing>` with the same three parameters returns on the same arguments: the
same final memory and the same access trace (the dispatcher adds no access of its own), or the
same failure. -/
theorem C13_dispatch_faithful (ws : RemainderHandler) (cOp : CompareOperatorN)
    (bOp : BooleanOperatorN) (signing : SigningN) (set : List Nat) (length value : Nat)
    (matchVector : List Nat) :
    Where ws cOp bOp signing set length value matchVector
        = WhereN ws cOp bOp signing set length value matchVector ∧
      WhereS ws signing cOp bOp set length value matchVector
        = WhereN ws cOp bOp signing set length value matchVector ∧
      WhereB ws bOp signing cOp set length value matchVector
        = WhereN ws cOp bOp signing set length value matchVector := by
  cases cOp <;> cases bOp <;> cases signing <;> exact ⟨rfl, rfl, rfl⟩

/-- The remainder call changes no word other than word `i >> 6`. -/
theorem remainderCall_words (ws : RemainderHandler) (cOp : CompareOperatorN)
    (bOp : BooleanOperatorN) (length value i : Nat) (m m' : Memory)
    (h : remainderCall ws cOp bOp length value i m = some m') (w : Nat) (hw : w ≠ i >>> 6) :
    m'.matchVector[w]? = m.matchVector[w]? := by
  unfold remainderCall at h
  split at h
  · cases hr : m.readWord (i >>> 6) with
    | none => rw [hr] at h; exact absurd h (by simp)
    | some word =>
      rw [hr] at h
      simp only [] at h
      cases hc : ws cOp bOp SigningN.Unsigned (List.drop i m.set) (length - i) value word with
      | none => rw [hc] at h; exact absurd h (by simp)
      | some word' =>
        rw [hc] at h
        simp only [Option.some.injEq] at h
        subst h
        exact List.getElem?_set_ne (fun e => hw e.symm)
  · simp only [Option.some.injEq] at h
    subst h
    rfl

/-- C14. Full-block correctness of the vectorized loop, whatever the remainder handler is. The
block loop of `WhereN` returns, and leaves in every word `w` below `length / 64` the
`combineWord` (overwrite for `Set`, bitwise AND for `And`, bitwise OR for `Or`) of the prior word
`w` and a 64-bit word `R` whose bit `j` is set exactly when `set[64 * w + j] OP value` holds under
the requested signedness, for every operator, so also through the operand swap and the negation
pass. Every memory `WhereN` returns has these words; `WhereN` returns when there is no remainder
or the handler meets its contract. -/
theorem C14_full_block_words (ws : RemainderHandler) (cOp : CompareOperatorN)
    (bOp : BooleanOperatorN) (sign : SigningN) (set : List Nat) (length value : Nat)
    (matchVector : List Nat) (h : ValidCall set length value matchVector) :
    (∃ m1, blockLoop cOp bOp sign (_mm256_set1_epi8 (-128))
        (if sign = SigningN.Unsigned then
          _mm256_sub_epi8 (_mm256_set1_epi8 (value : Int)) (_mm256_set1_epi8 (-128))
        else _mm256_set1_epi8 (value : Int)) (length &&& 0xFFFFFFC0) length 0
        { set := set, matchVector := matchVector, trace := [] }
          = some (64 * (length / 64), m1) ∧
      ∀ w, w < length / 64 →
        ∃ R, R < 2 ^ 64 ∧
          (∀ j, j < 64 →
            R.testBit j = compareBytes cOp sign (set.getD (64 * w + j) 0) value) ∧
          m1.matchVector[w]? = some (combineWord bOp (matchVector.getD w 0) R)) ∧
    (∀ m', WhereN ws cOp bOp sign set length value matchVector = some m' →
      ∀ w, w < length / 64 →
        ∃ R, R < 2 ^ 64 ∧
          (∀ j, j < 64 →
            R.testBit j = compareBytes cOp sign (set.getD (64 * w + j) 0) value) ∧
          m'.matchVector[w]? = some (combineWord bOp (matchVector.getD w 0) R)) ∧
    (length % 64 = 0 ∨ RemainderContract ws →
      ∃ m', WhereN ws cOp bOp sign set length value matchVector = some m') := by
  obtain ⟨m1, hloop, hW, _, _, hwr, _, _⟩ :=
    WhereN_loop cOp bOp sign set length value matchVector h
  have hword : ∀ w, w < length / 64 →
      ∃ R, R < 2 ^ 64 ∧
        (∀ j, j < 64 →
          R.testBit j = compareBytes cOp sign (set.getD (64 * w + j) 0) value) ∧
        m1.matchVector[w]? = some (combineWord bOp (matchVector.getD w 0) R) :=
    fun w hw => ⟨predicateWord cOp sign set value (64 * w), predicateWord_lt _ _ _ _ _,
      fun j hj => predicateWord_testBit _ _ _ _ _ _ hj, hwr w hw⟩
  refine ⟨⟨m1, hloop, hword⟩, ?_, ?_⟩
  · intro m' hrun w hw
    rw [hW ws] at hrun
    obtain ⟨R, hR, hbits, hm1⟩ := hword w hw
    refine ⟨R, hR, hbits, ?_⟩
    rw [remainderCall_words ws cOp bOp length value _ m1 m' hrun w
      (by rw [shiftRight_block]; omega)]
    exact hm1
  · intro hor
    obtain ⟨m', hrun, _⟩ := WhereN_spec ws cOp bOp sign set length value matchVector h
      (fun hne => hor.resolve_left hne)
    exact ⟨m', hrun⟩

/-- C14 at a concrete input: 70 signed bytes, `GreaterThanOrEqual` (operand swap and negation),
combine `And`, with the model of `WhereSingle`, for which the run returns. -/
theorem C14_full_block_words_witness :
    ((∃ m1, blockLoop CompareOperatorN.GreaterThanOrEqual BooleanOperatorN.And SigningN.Signed
        (_mm256_set1_epi8 (-128))
        (if SigningN.Signed = SigningN.Unsigned then
          _mm256_sub_epi8 (_mm256_set1_epi8 ((50 : Nat) : Int)) (_mm256_set1_epi8 (-128))
        else _mm256_set1_epi8 ((50 : Nat) : Int)) (70 &&& 0xFFFFFFC0) 70 0
        { set := List.range 70, matchVector := [7, 8], trace := [] }
          = some (64 * (70 / 64), m1) ∧
      ∀ w, w < 70 / 64 →
        ∃ R, R < 2 ^ 64 ∧
          (∀ j, j < 64 →
            R.testBit j = compareBytes CompareOperatorN.GreaterThanOrEqual SigningN.Signed
              ((List.range 70).getD (64 * w + j) 0) 50) ∧
          m1.matchVector[w]? = some (combineWord BooleanOperatorN.And ([7, 8].getD w 0) R)) ∧
    (∀ m', WhereN WhereSingle CompareOperatorN.GreaterThanOrEqual BooleanOperatorN.And
        SigningN.Signed (List.range 70) 70 50 [7, 8] = some m' →
      ∀ w, w < 70 / 64 →
        ∃ R, R < 2 ^ 64 ∧
          (∀ j, j < 64 →
            R.testBit j = compareBytes CompareOperatorN.GreaterThanOrEqual SigningN.Signed
              ((List.range 70).getD (64 * w + j) 0) 50) ∧
          m'.matchVector[w]? = some (combineWord BooleanOperatorN.And ([7, 8].getD w 0) R))) ∧
    ∃ m', WhereN WhereSingle CompareOperatorN.GreaterThanOrEqual BooleanOperatorN.And
        SigningN.Signed (List.range 70) 70 50 [7, 8] = some m' :=
  have h := C14_full_block_words WhereSingle CompareOperatorN.GreaterThanOrEqual
    BooleanOperatorN.And SigningN.Signed (List.range 70) 70 50 [7, 8] (by decide)
  ⟨⟨h.1, h.2.1⟩, h.2.2 (Or.inr WhereSingle_contract)⟩

set_option maxRecDepth 100000 in
theorem bias_eq_xor : ∀ a, a < 256 → (a + 256 - 128) % 256 = a ^^^ 0x80 := by
  decide

theorem bias_order (a b : Nat) (ha : a < 256) (hb : b < 256) :
    a > b ↔ toInt8 ((a + 256 - 128) % 256) > toInt8 ((b + 256 - 128) % 256) := by
  unfold toInt8
  split_ifs <;> omega

/-- C15. Bias shift preserves order: for all bytes `a` and `b`, the per-byte `_mm256_sub_epi8`
by the constant `-128` turns a register filled with `a` into the register filled with
`a XOR 0x80`; `a > b` as unsigned integers holds exactly when the two's-complement reading of
`a XOR 0x80` is greater than that of `b XOR 0x80`; hence the signed greater-than primitive on
the biased registers yields `0xFF` in every byte when `a > b` and `0x00` otherwise. -/
theorem C15_bias_preserves_order (a b : Nat) (ha : a < 256) (hb : b < 256) :
    _mm256_sub_epi8 (_mm256_set1_epi8 (a : Int)) (_mm256_set1_epi8 (-128))
        = _mm256_set1_epi8 ((a ^^^ 0x80 : Nat) : Int) ∧
      (a > b ↔ toInt8 (a ^^^ 0x80) > toInt8 (b ^^^ 0x80)) ∧
      _mm256_cmpgt_epi8
          (_mm256_sub_epi8 (_mm256_set1_epi8 (a : Int)) (_mm256_set1_epi8 (-128)))
          (_mm256_sub_epi8 (_mm256_set1_epi8 (b : Int)) (_mm256_set1_epi8 (-128)))
        = List.replicate 32 (if a > b then 0xFF else 0x00) := by
  have hxa := bias_eq_xor a ha
  have hxb := bias_eq_xor b hb
  have hlt : a ^^^ 0x80 < 256 := by rw [← hxa]; exact Nat.mod_lt _ (by decide)
  have hsub : ∀ c : Nat, c < 256 →
      _mm256_sub_epi8 (_mm256_set1_epi8 (c : Int)) (_mm256_set1_epi8 (-128))
        = List.replicate 32 ((c + 256 - 128) % 256) := by
    intro c hc
    rw [set1_bias, set1_value c hc, _mm256_sub_epi8, List.zipWith_replicate]
    simp
  have hord := bias_order a b ha hb
  refine ⟨?_, ?_, ?_⟩
  · rw [hsub a ha, set1_value _ hlt, hxa]
  · rw [← hxa, ← hxb]; exact hord
  · rw [hsub a ha, hsub b hb, _mm256_cmpgt_epi8, List.zipWith_replicate, Nat.min_self]
    by_cases hab : a > b
    · rw [if_pos hab, if_pos (hord.mp hab)]
    · rw [if_neg hab, if_neg (fun h => hab (hord.mpr h))]

/-- C15 at the boundary of the spec: `0xFF` against `0x01`. -/
theorem C15_bias_preserves_order_witness :
    _mm256_sub_epi8 (_mm256_set1_epi8 ((0xFF : Nat) : Int)) (_mm256_set1_epi8 (-128))
        = _mm256_set1_epi8 ((0xFF ^^^ 0x80 : Nat) : Int) ∧
      (0xFF > 0x01 ↔ toInt8 (0xFF ^^^ 0x80) > toInt8 (0x01 ^^^ 0x80)) ∧
      _mm256_cmpgt_epi8
          (_mm256_sub_epi8 (_mm256_set1_epi8 ((0xFF : Nat) : Int)) (_mm256_set1_epi8 (-128)))
          (_mm256_sub_epi8 (_mm256_set1_epi8 ((0x01 : Nat) : Int)) (_mm256_set1_epi8 (-128)))
        = List.replicate 32 (if 0xFF > 0x01 then 0xFF else 0x00) :=
  C15_bias_preserves_order 0xFF 0x01 (by decide) (by decide)

/-- C16. Lane merge preserves element order: for any two 32-byte masks, the merged word
`(uint64(movemask(m2)) << 32) | movemask(m1)` is below `2 ^ 64`, has bit `j` equal to the top bit
of byte `j` of `m1` and bit `32 + j` equal to the top bit of byte `j` of `m2`, for every
`j < 32`; when the top bit of byte 31 of `m1` is set the `int` returned for `m1` is negative,
yet its conversion to `unsigned int` stays below `2 ^ 32`, so bit 31 does not spill into
bits 32..63. -/
theorem C16_lane_merge_order (mask1 mask2 : List Nat) (h1 : mask1.length = 32)
    (h2 : mask2.length = 32) :
    toUInt32 (_mm256_movemask_epi8 mask1) < 2 ^ 32 ∧
      ((mask1.getD 31 0).testBit 7 = true → _mm256_movemask_epi8 mask1 < 0) ∧
      (toUInt32 (_mm256_movemask_epi8 mask2) <<< 32) % 2 ^ 64
        ||| toUInt32 (_mm256_movemask_epi8 mask1) < 2 ^ 64 ∧
      ∀ j, j < 32 →
        ((toUInt32 (_mm256_movemask_epi8 mask2) <<< 32) % 2 ^ 64
            ||| toUInt32 (_mm256_movemask_epi8 mask1)).testBit j
          = (mask1.getD j 0).testBit 7 ∧
        ((toUInt32 (_mm256_movemask_epi8 mask2) <<< 32) % 2 ^ 64
            ||| toUInt32 (_mm256_movemask_epi8 mask1)).testBit (32 + j)
          = (mask2.getD j 0).testBit 7 := by
  have l1 : movemaskBits mask1 < 2 ^ 32 := by simpa [h1] using movemaskBits_lt mask1
  have l2 : movemaskBits mask2 < 2 ^ 32 := by simpa [h2] using movemaskBits_lt mask2
  have e1 : toUInt32 (_mm256_movemask_epi8 mask1) = movemaskBits mask1 := by
    rw [_mm256_movemask_epi8, toUInt32_toInt32, Nat.mod_eq_of_lt l1]
  have e2 : toUInt32 (_mm256_movemask_epi8 mask2) = movemaskBits mask2 := by
    rw [_mm256_movemask_epi8, toUInt32_toInt32, Nat.mod_eq_of_lt l2]
  have htop : ∀ x : Nat, decide (x / 128 % 2 = 1) = x.testBit 7 := by
    intro x
    rw [Nat.testBit_to_div_mod]
  rw [e1, e2]
  refine ⟨l1, ?_, ?_, ?_⟩
  · intro h31
    have hb : (movemaskBits mask1).testBit 31 = true := by
      rw [movemaskBits_testBit, htop]; exact h31
    have hge := Nat.testBit_implies_ge hb
    unfold _mm256_movemask_epi8 toInt32
    split_ifs <;> omega
  · apply Nat.lt_pow_two_of_testBit
    intro j hj
    rw [merged_testBit _ _ l1 l2, if_neg (by omega)]
    apply Nat.testBit_lt_two_pow
    calc movemaskBits mask2 < 2 ^ 32 := l2
      _ ≤ 2 ^ (j - 32) := Nat.pow_le_pow_right (by decide) (by omega)
  · intro j hj
    constructor
    · rw [merged_testBit _ _ l1 l2, if_pos hj, movemaskBits_testBit, htop]
    · rw [merged_testBit _ _ l1 l2, if_neg (by omega), show 32 + j - 32 = j by omega,
        movemaskBits_testBit, htop]

/-- C16 at a concrete input: in `m1` only byte 31 is `0xFF`, in `m2` only byte 0. -/
theorem C16_lane_merge_order_witness :
    toUInt32 (_mm256_movemask_epi8 (List.replicate 31 0 ++ [0xFF])) < 2 ^ 32 ∧
      (((List.replicate 31 0 ++ [0xFF]).getD 31 0).testBit 7 = true →
        _mm256_movemask_epi8 (List.replicate 31 0 ++ [0xFF]) < 0) ∧
      (toUInt32 (_mm256_movemask_epi8 (0xFF :: List.replicate 31 0)) <<< 32) % 2 ^ 64
        ||| toUInt32 (_mm256_movemask_epi8 (List.replicate 31 0 ++ [0xFF])) < 2 ^ 64 ∧
      ∀ j, j < 32 →
        ((toUInt32 (_mm256_movemask_epi8 (0xFF :: List.replicate 31 0)) <<< 32) % 2 ^ 64
            ||| toUInt32 (_mm256_movemask_epi8 (List.replicate 31 0 ++ [0xFF]))).testBit j
          = ((List.replicate 31 0 ++ [0xFF]).getD j 0).testBit 7 ∧
        ((toUInt32 (_mm256_movemask_epi8 (0xFF :: List.replicate 31 0)) <<< 32) % 2 ^ 64
            ||| toUInt32 (_mm256_movemask_epi8 (List.replicate 31 0 ++ [0xFF]))).testBit (32 + j)
          = ((0xFF :: List.replicate 31 0).getD j 0).testBit 7 :=
  C16_lane_merge_order (List.replicate 31 0 ++ [0xFF]) (0xFF :: List.replicate 31 0)
    (by decide) (by decide)

theorem blockLoop_no_blocks (cOp : CompareOperatorN) (bOp : BooleanOperatorN) (sign : SigningN)
    (unsignedToSigned blockOfValue : List Nat) (fuel : Nat) (m : Memory) :
    blockLoop cOp bOp sign unsignedToSigned blockOfValue 0 fuel 0 m = some (0, m) := by
  cases fuel <;> simp [blockLoop]

/-- C17. Signedness does not reach the remainder path, whatever the remainder handler is. For
every `length < 64` the whole result of `Where` under `Signed` is the result under `Unsigned`.
For every valid call with `length % 64` not zero, the word `length / 64` after the run under
`Signed` is the word after the run under `Unsigned` (and the runs fail together); with a handler
meeting its contract both runs return and that word is present. -/
theorem C17_remainder_ignores_signedness (ws : RemainderHandler) (cOp : CompareOperatorN)
    (bOp : BooleanOperatorN) (set : List Nat) (length value : Nat) (matchVector : List Nat) :
    (length < 64 →
      Where ws cOp bOp SigningN.Signed set length value matchVector
        = Where ws cOp bOp SigningN.Unsigned set length value matchVector) ∧
    (ValidCall set length value matchVector → length % 64 ≠ 0 →
      (Where ws cOp bOp SigningN.Signed set length value matchVector).map
          (fun m => m.matchVector[length / 64]?)
        = (Where ws cOp bOp SigningN.Unsigned set length value matchVector).map
          (fun m => m.matchVector[length / 64]?) ∧
      (RemainderContract ws → ∃ mS mU word,
        Where ws cOp bOp SigningN.Signed set length value matchVector = some mS ∧
        Where ws cOp bOp SigningN.Unsigned set length value matchVector = some mU ∧
        mS.matchVector[length / 64]? = some word ∧
        mU.matchVector[length / 64]? = some word)) := by
  have htail : ValidCall set length value matchVector → length % 64 ≠ 0 →
      (Where ws cOp bOp SigningN.Signed set length value matchVector).map
          (fun m => m.matchVector[length / 64]?)
        = (Where ws cOp bOp SigningN.Unsigned set length value matchVector).map
          (fun m => m.matchVector[length / 64]?) := by
    intro h hr
    obtain ⟨m1, _, hW1, hs1, hl1, _, hf1, _⟩ :=
      WhereN_loop cOp bOp SigningN.Signed set length value matchVector h
    obtain ⟨m2, _, hW2, hs2, hl2, _, hf2, _⟩ :=
      WhereN_loop cOp bOp SigningN.Unsigned set length value matchVector h
    have hk : length / 64 < matchVector.length := by have := h.2.2.2.2; omega
    have hr63 : length &&& 63 ≠ 0 := by rw [and_63]; exact hr
    rw [Where_eq_WhereN, Where_eq_WhereN, hW1 ws, hW2 ws]
    unfold remainderCall
    simp only [if_pos hr63, Memory.readWord, shiftRight_block, hf1 _ (Nat.le_refl _),
      hf2 _ (Nat.le_refl _), List.getElem?_eq_getElem hk, hs1, hs2]
    cases ws cOp bOp SigningN.Unsigned (List.drop (64 * (length / 64)) set)
        (length - 64 * (length / 64)) value matchVector[length / 64] with
    | none => rfl
    | some word' =>
      simp only [Option.map_some']
      rw [List.getElem?_set_self (by omega), List.getElem?_set_self (by omega)]
  refine ⟨?_, fun h hr => ⟨htail h hr, ?_⟩⟩
  · intro hlt
    have hmask : length &&& 0xFFFFFFC0 = 0 := by
      rw [and_blockMask length (by omega)]; omega
    rw [Where_eq_WhereN, Where_eq_WhereN]
    unfold WhereN
    simp only [hmask, blockLoop_no_blocks]
  · intro hws
    obtain ⟨mS, hS, _, hlS, _, _, _, _⟩ := Where_spec ws cOp bOp SigningN.Signed set length
      value matchVector h (fun _ => hws)
    obtain ⟨mU, hU, _, _, _, _, _, _⟩ := Where_spec ws cOp bOp SigningN.Unsigned set length
      value matchVector h (fun _ => hws)
    have hk : length / 64 < mS.matchVector.length := by
      rw [hlS]; have := h.2.2.2.2; omega
    have ht := htail h hr
    rw [hS, hU] at ht
    simp only [Option.map_some', Option.some.injEq] at ht
    exact ⟨mS, mU, mS.matchVector[length / 64], hS, hU, List.getElem?_eq_getElem hk,
      by rw [← ht]; exact List.getElem?_eq_getElem hk⟩

/-- C17 at two concrete inputs. With `length = 5`, elements `0xFF`, value `0x01`, `GreaterThan`
and a handler that always returns the word `99` (it does not meet the contract), the results
under `Signed` and `Unsigned` coincide. With `length = 70` and the model of `WhereSingle`, both
runs return and leave the same word 1. -/
theorem C17_remainder_ignores_signedness_witness :
    Where (fun _ _ _ _ _ _ _ => some 99) CompareOperatorN.GreaterThan BooleanOperatorN.Set
        SigningN.Signed (List.replicate 5 0xFF) 5 0x01 [0]
      = Where (fun _ _ _ _ _ _ _ => some 99) CompareOperatorN.GreaterThan BooleanOperatorN.Set
        SigningN.Unsigned (List.replicate 5 0xFF) 5 0x01 [0] ∧
    ∃ mS mU word,
      Where WhereSingle CompareOperatorN.GreaterThan BooleanOperatorN.Set SigningN.Signed
        (List.replicate 70 0xFF) 70 0x01 [0, 0] = some mS ∧
      Where WhereSingle CompareOperatorN.GreaterThan BooleanOperatorN.Set SigningN.Unsigned
        (List.replicate 70 0xFF) 70 0x01 [0, 0] = some mU ∧
      mS.matchVector[70 / 64]? = some word ∧ mU.matchVector[70 / 64]? = some word :=
  ⟨(C17_remainder_ignores_signedness (fun _ _ _ _ _ _ _ => some 99)
      CompareOperatorN.GreaterThan BooleanOperatorN.Set (List.replicate 5 0xFF) 5 0x01 [0]).1
      (by decide),
    ((C17_remainder_ignores_signedness WhereSingle CompareOperatorN.GreaterThan
      BooleanOperatorN.Set (List.replicate 70 0xFF) 70 0x01 [0, 0]).2 (by decide) (by decide)).2
      WhereSingle_contract⟩

/-- With fewer units of fuel than blocks the loop does not return. -/
theorem blockLoop_short (cOp : CompareOperatorN) (bOp : BooleanOperatorN) (sign : SigningN)
    (value : Nat) (hv : value < 256) (n : Nat) :
    ∀ (fuel a : Nat) (m : Memory), fuel < n → 64 * (a + n) ≤ m.set.length →
      64 * (a + n) < 2 ^ 31 → a + n ≤ m.matchVector.length → (∀ x ∈ m.set, x < 256) →
      blockLoop cOp bOp sign (_mm256_set1_epi8 (-128))
          (if sign = SigningN.Unsigned then
            _mm256_sub_epi8 (_mm256_set1_epi8 (value : Int)) (_mm256_set1_epi8 (-128))
          else _mm256_set1_epi8 (value : Int)) (64 * (a + n)) fuel (64 * a) m = none := by
  induction n with
  | zero => intro fuel a m hf; omega
  | succ n ih =>
    intro fuel a m hfuel hset h31 hmv hbytes
    have hlt : 64 * a < 64 * (a + (n + 1)) := by omega
    cases fuel with
    | zero => rw [blockLoop, if_pos hlt]
    | succ fuel =>
      have hres := blockResult_eq cOp sign m value (64 * a) (by omega) (by omega) hbytes hv
      have hw : (64 * a) >>> 6 < m.matchVector.length := by rw [shiftRight_block]; omega
      have hmerge := mergeResult_eq bOp (64 * a)
        (predicateWord cOp sign m.set value (64 * a))
        { m with trace := m.trace ++ [Access.load (64 * a), Access.load (64 * a + 32)] } hw
      have hadd : intAdd (64 * a) 64 = some (64 * (a + 1)) := by
        simp [intAdd, show 64 * a + 64 < 2 ^ 31 by omega]; omega
      have hbl : 64 * (a + (n + 1)) = 64 * (a + 1 + n) := by omega
      have hrec := ih fuel (a + 1)
        { m with
          matchVector := m.matchVector.set ((64 * a) >>> 6)
            (combineWord bOp (m.matchVector.getD ((64 * a) >>> 6) 0)
              (predicateWord cOp sign m.set value (64 * a)))
          trace := m.trace ++ [Access.load (64 * a), Access.load (64 * a + 32)]
            ++ [Access.store ((64 * a) >>> 6)] }
        (by omega) (by simpa using (by omega : 64 * (a + 1 + n) ≤ m.set.length))
        (by omega) (by simpa using (by omega : a + 1 + n ≤ m.matchVector.length)) hbytes
      rw [blockLoop, if_pos hlt, hres]
      simp only []
      rw [hmerge]
      simp only [hadd]
      rw [hbl]
      exact hrec

/-- C18. Loop counting and termination, for a valid call (so `length < 2 ^ 31`). The block
length `length & ~63` is `64 * (length / 64)`; the block loop returns exactly when it is given at
least `length / 64` iterations; it then leaves `i` at the block length, no `int` addition having
left the range of `int`, and its accesses are those of the iterations at
`i = 0, 64, ..., 64 * (length / 64 - 1)`; on exit `length - i` is `length % 64`, which lies in
`1..63` exactly when `length & 63` is not zero, and `i >> 6` is `length / 64`. -/
theorem C18_loop_counting (cOp : CompareOperatorN) (bOp : BooleanOperatorN) (sign : SigningN)
    (set : List Nat) (length value : Nat) (matchVector : List Nat)
    (h : ValidCall set length value matchVector) :
    length &&& 0xFFFFFFC0 = 64 * (length / 64) ∧ length &&& 0xFFFFFFC0 < 2 ^ 31 ∧
    (∀ fuel, (blockLoop cOp bOp sign (_mm256_set1_epi8 (-128))
        (if sign = SigningN.Unsigned then
          _mm256_sub_epi8 (_mm256_set1_epi8 (value : Int)) (_mm256_set1_epi8 (-128))
        else _mm256_set1_epi8 (value : Int)) (length &&& 0xFFFFFFC0) fuel 0
        { set := set, matchVector := matchVector, trace := [] }).isSome
          = decide (length / 64 ≤ fuel)) ∧
    (∃ m1, blockLoop cOp bOp sign (_mm256_set1_epi8 (-128))
        (if sign = SigningN.Unsigned then
          _mm256_sub_epi8 (_mm256_set1_epi8 (value : Int)) (_mm256_set1_epi8 (-128))
        else _mm256_set1_epi8 (value : Int)) (length &&& 0xFFFFFFC0) length 0
        { set := set, matchVector := matchVector, trace := [] }
          = some (length &&& 0xFFFFFFC0, m1) ∧
      m1.trace = blockTrace 0 (length / 64) ∧
      (∀ o, Access.load o ∈ m1.trace ↔ ∃ w, w < length / 64 ∧ (o = 64 * w ∨ o = 64 * w + 32)) ∧
      (∀ w, Access.store w ∈ m1.trace ↔ w < length / 64)) ∧
    length - (length &&& 0xFFFFFFC0) = length % 64 ∧
    (length &&& 0xFFFFFFC0) >>> 6 = length / 64 ∧
    (length &&& 63 ≠ 0 ↔
      1 ≤ length - (length &&& 0xFFFFFFC0) ∧ length - (length &&& 0xFFFFFFC0) ≤ 63) := by
  have hmask := and_blockMask length (by have := h.1; omega)
  obtain ⟨m1, hrun, _, _, _, _, _, htr⟩ := WhereN_loop cOp bOp sign set length value matchVector h
  obtain ⟨hL, hset, hbytes, hv, hmv⟩ := h
  rw [hmask]
  refine ⟨rfl, by omega, ?_, ⟨m1, by rw [hmask] at hrun; exact hrun, htr, ?_, ?_⟩, by omega,
    shiftRight_block _, ?_⟩
  · intro fuel
    by_cases hf : length / 64 ≤ fuel
    · obtain ⟨m', hr, _⟩ := blockLoop_spec cOp bOp sign value hv (length / 64) fuel 0
        { set := set, matchVector := matchVector, trace := [] } hf
        (by simp only []; omega) (by omega) (by simp only []; omega) hbytes
      simp only [Nat.zero_add, Nat.mul_zero] at hr
      rw [hr]
      simp [hf]
    · have hr := blockLoop_short cOp bOp sign value hv (length / 64) fuel 0
        { set := set, matchVector := matchVector, trace := [] } (by omega)
        (by simp only []; omega) (by omega) (by simp only []; omega) hbytes
      simp only [Nat.zero_add, Nat.mul_zero] at hr
      rw [hr]
      simp [hf]
  · intro o
    rw [htr, mem_blockTrace]
    constructor
    · rintro ⟨w, _, h2, he⟩
      rcases he with he | he | he
      · cases he; exact ⟨w, by omega, Or.inl rfl⟩
      · cases he; exact ⟨w, by omega, Or.inr rfl⟩
      · cases he
    · rintro ⟨w, hw, he | he⟩
      · exact ⟨w, Nat.zero_le _, by omega, Or.inl (by rw [he])⟩
      · exact ⟨w, Nat.zero_le _, by omega, Or.inr (Or.inl (by rw [he]))⟩
  · intro w
    rw [htr, mem_blockTrace]
    constructor
    · rintro ⟨w', _, h2, he⟩
      rcases he with he | he | he
      · cases he
      · cases he
      · cases he; omega
    · intro hw
      exact ⟨w, Nat.zero_le _, by omega, Or.inr (Or.inr rfl)⟩
  · rw [and_63]; omega

/-- C18 at a concrete input: `length = 70`, one iteration and a remainder of 6. -/
theorem C18_loop_counting_witness :
    70 &&& 0xFFFFFFC0 = 64 * (70 / 64) ∧ 70 &&& 0xFFFFFFC0 < 2 ^ 31 ∧
    (∀ fuel, (blockLoop CompareOperatorN.LessThan BooleanOperatorN.Set SigningN.Unsigned
        (_mm256_set1_epi8 (-128))
        (if SigningN.Unsigned = SigningN.Unsigned then
          _mm256_sub_epi8 (_mm256_set1_epi8 ((9 : Nat) : Int)) (_mm256_set1_epi8 (-128))
        else _mm256_set1_epi8 ((9 : Nat) : Int)) (70 &&& 0xFFFFFFC0) fuel 0
        { set := List.range 70, matchVector := [0, 0], trace := [] }).isSome
          = decide (70 / 64 ≤ fuel)) ∧
    (∃ m1, blockLoop CompareOperatorN.LessThan BooleanOperatorN.Set SigningN.Unsigned
        (_mm256_set1_epi8 (-128))
        (if SigningN.Unsigned = SigningN.Unsigned then
          _mm256_sub_epi8 (_mm256_set1_epi8 ((9 : Nat) : Int)) (_mm256_set1_epi8 (-128))
        else _mm256_set1_epi8 ((9 : Nat) : Int)) (70 &&& 0xFFFFFFC0) 70 0
        { set := List.range 70, matchVector := [0, 0], trace := [] }
          = some (70 &&& 0xFFFFFFC0, m1) ∧
      m1.trace = blockTrace 0 (70 / 64) ∧
      (∀ o, Access.load o ∈ m1.trace ↔ ∃ w, w < 70 / 64 ∧ (o = 64 * w ∨ o = 64 * w + 32)) ∧
      (∀ w, Access.store w ∈ m1.trace ↔ w < 70 / 64)) ∧
    70 - (70 &&& 0xFFFFFFC0) = 70 % 64 ∧
    (70 &&& 0xFFFFFFC0) >>> 6 = 70 / 64 ∧
    (70 &&& 63 ≠ 0 ↔ 1 ≤ 70 - (70 &&& 0xFFFFFFC0) ∧ 70 - (70 &&& 0xFFFFFFC0) ≤ 63) :=
  C18_loop_counting CompareOperatorN.LessThan BooleanOperatorN.Set SigningN.Unsigned
    (List.range 70) 70 9 [0, 0] (by decide)

theorem compareBytes_trichotomy (sign : SigningN) (x v : Nat) :
    (compareBytes CompareOperatorN.LessThan sign x v).toNat
      + (compareBytes CompareOperatorN.Equals sign x v).toNat
      + (compareBytes CompareOperatorN.GreaterThan sign x v).toNat = 1 := by
  simp only [compareBytes]
  rcases lt_trichotomy (interpret sign x) (interpret sign v) with hlt | heq | hgt
  · have h1 : ¬ interpret sign x = interpret sign v := by omega
    have h2 : ¬ interpret sign x > interpret sign v := by omega
    simp [hlt, h1, h2]
  · have h1 : ¬ interpret sign x < interpret sign v := by omega
    have h2 : ¬ interpret sign x > interpret sign v := by omega
    simp [heq, h1, h2]
  · have h1 : ¬ interpret sign x < interpret sign v := by omega
    have h2 : ¬ interpret sign x = interpret sign v := by omega
    simp [hgt, h1, h2]

/-- The three scalar-reference words of a block for `LessThan`, `Equals` and `GreaterThan` are
pairwise disjoint and cover all 64 bits. -/
theorem predicateWord_trichotomy (sign : SigningN) (set : List Nat) (value i : Nat) :
    predicateWord CompareOperatorN.LessThan sign set value i
        &&& predicateWord CompareOperatorN.Equals sign set value i = 0 ∧
      predicateWord CompareOperatorN.LessThan sign set value i
        &&& predicateWord CompareOperatorN.GreaterThan sign set value i = 0 ∧
      predicateWord CompareOperatorN.Equals sign set value i
        &&& predicateWord CompareOperatorN.GreaterThan sign set value i = 0 ∧
      predicateWord CompareOperatorN.LessThan sign set value i
        ||| predicateWord CompareOperatorN.Equals sign set value i
        ||| predicateWord CompareOperatorN.GreaterThan sign set value i = 2 ^ 64 - 1 := by
  have hbits : ∀ (c : CompareOperatorN) (j : Nat),
      (predicateWord c sign set value i).testBit j
        = (decide (j < 64) && compareBytes c sign (set.getD (i + j) 0) value) := by
    intro c j
    by_cases hj : j < 64
    · rw [predicateWord_testBit _ _ _ _ _ _ hj]; simp [hj]
    · have hle : (2 : Nat) ^ 64 ≤ 2 ^ j := Nat.pow_le_pow_right (by decide) (by omega)
      rw [Nat.testBit_lt_two_pow (Nat.lt_of_lt_of_le (predicateWord_lt c sign set value i) hle)]
      simp [hj]
  have htri : ∀ j, (compareBytes CompareOperatorN.LessThan sign (set.getD (i + j) 0) value).toNat
      + (compareBytes CompareOperatorN.Equals sign (set.getD (i + j) 0) value).toNat
      + (compareBytes CompareOperatorN.GreaterThan sign (set.getD (i + j) 0) value).toNat = 1 :=
    fun j => compareBytes_trichotomy sign _ value
  refine ⟨?_, ?_, ?_, ?_⟩ <;>
  · apply Nat.eq_of_testBit_eq
    intro j
    have := htri j
    simp only [Nat.testBit_and, Nat.testBit_or, hbits, Nat.zero_testBit,
      Nat.testBit_two_pow_sub_one]
    revert this
    cases compareBytes CompareOperatorN.LessThan sign (set.getD (i + j) 0) value <;>
      cases compareBytes CompareOperatorN.Equals sign (set.getD (i + j) 0) value <;>
      cases compareBytes CompareOperatorN.GreaterThan sign (set.getD (i + j) 0) value <;>
      simp

/-- C19. Trichotomy of the ordering operators, with combine `Set`: at every index below
`length` exactly one of the three output bits of `LessThan`, `Equals` and `GreaterThan` is 1;
on every word of a full block the three output words are pairwise disjoint (bitwise AND is 0)
and their bitwise OR is the all-ones word. -/
theorem C19_ordering_trichotomy (ws : RemainderHandler) (hws : RemainderContract ws)
    (signing : SigningN) (set : List Nat) (length value : Nat) (prior : List Nat)
    (h : ValidCall set length value prior) :
    ∃ mLT mEQ mGT,
      Where ws CompareOperatorN.LessThan BooleanOperatorN.Set signing set length value prior
        = some mLT ∧
      Where ws CompareOperatorN.Equals BooleanOperatorN.Set signing set length value prior
        = some mEQ ∧
      Where ws CompareOperatorN.GreaterThan BooleanOperatorN.Set signing set length value prior
        = some mGT ∧
      (∀ i, i < length →
        (bitAt mLT.matchVector i).toNat + (bitAt mEQ.matchVector i).toNat
          + (bitAt mGT.matchVector i).toNat = 1) ∧
      ∀ w, w < length / 64 →
        ∃ x y z, mLT.matchVector[w]? = some x ∧ mEQ.matchVector[w]? = some y ∧
          mGT.matchVector[w]? = some z ∧
          x &&& y = 0 ∧ x &&& z = 0 ∧ y &&& z = 0 ∧ x ||| y ||| z = 2 ^ 64 - 1 := by
  obtain ⟨mLT, hLT, _, _, wLT, _, _, bLT⟩ := Where_spec ws CompareOperatorN.LessThan
    BooleanOperatorN.Set signing set length value prior h (fun _ => hws)
  obtain ⟨mEQ, hEQ, _, _, wEQ, _, _, bEQ⟩ := Where_spec ws CompareOperatorN.Equals
    BooleanOperatorN.Set signing set length value prior h (fun _ => hws)
  obtain ⟨mGT, hGT, _, _, wGT, _, _, bGT⟩ := Where_spec ws CompareOperatorN.GreaterThan
    BooleanOperatorN.Set signing set length value prior h (fun _ => hws)
  refine ⟨mLT, mEQ, mGT, hLT, hEQ, hGT, ?_, ?_⟩
  · intro i hi
    rw [bLT i hi, bEQ i hi, bGT i hi]
    simp only [combineBit]
    exact compareBytes_trichotomy _ _ _
  · intro w hw
    obtain ⟨t1, t2, t3, t4⟩ := predicateWord_trichotomy signing set value (64 * w)
    exact ⟨_, _, _, wLT w hw, wEQ w hw, wGT w hw, t1, t2, t3, t4⟩

/-- C19 at a concrete input: 70 signed bytes around the value `0x80`. -/
theorem C19_ordering_trichotomy_witness :
    ∃ mLT mEQ mGT,
      Where WhereSingle CompareOperatorN.LessThan BooleanOperatorN.Set SigningN.Signed
        (List.range 70 ++ [0x80, 0xFF]) 72 0x80 [0, 0] = some mLT ∧
      Where WhereSingle CompareOperatorN.Equals BooleanOperatorN.Set SigningN.Signed
        (List.range 70 ++ [0x80, 0xFF]) 72 0x80 [0, 0] = some mEQ ∧
      Where WhereSingle CompareOperatorN.GreaterThan BooleanOperatorN.Set SigningN.Signed
        (List.range 70 ++ [0x80, 0xFF]) 72 0x80 [0, 0] = some mGT ∧
      (∀ i, i < 72 →
        (bitAt mLT.matchVector i).toNat + (bitAt mEQ.matchVector i).toNat
          + (bitAt mGT.matchVector i).toNat = 1) ∧
      ∀ w, w < 72 / 64 →
        ∃ x y z, mLT.matchVector[w]? = some x ∧ mEQ.matchVector[w]? = some y ∧
          mGT.matchVector[w]? = some z ∧
          x &&& y = 0 ∧ x &&& z = 0 ∧ y &&& z = 0 ∧ x ||| y ||| z = 2 ^ 64 - 1 :=
  C19_ordering_trichotomy WhereSingle WhereSingle_contract SigningN.Signed
    (List.range 70 ++ [0x80, 0xFF]) 72 0x80 [0, 0] (by decide)

end Elfie
